import Mathlib

/-!
# ai-manager: path expansion, retention-based cleanup and tool discovery

A shallow embedding of the Go packages `internal/config`, `internal/models`,
`internal/utils`, `internal/discovery`, `internal/cleanup` and the `cleanup`
command of `internal/cli`, together with a small model of the parts of the Go
standard library they call (`strings.HasPrefix`, `filepath.Clean`,
`filepath.Join`, `os.ExpandEnv`, `os.Stat`, `os.Remove`, `filepath.Walk`).

Go strings are lists of characters.  The filesystem is an explicit state that
is passed through every operation.  Byte totals and times are `int64` values
with wrap-around; counters of entries and of tools are plain integers, since a
run cannot count `2^63` of them.
-/

namespace AiManager

/-! ## Strings -/

/-- A Go string. -/
abbrev Str := List Char

/-- The Go function `strings.HasPrefix`. -/
def hasPrefix : Str → Str → Bool
  | _, [] => true
  | [], _ :: _ => false
  | c :: s, d :: p => c == d && hasPrefix s p

/-- The Go function `strings.Join`. -/
def strJoin (sep : Str) : List Str → Str
  | [] => []
  | [s] => s
  | s :: t :: rest => s ++ sep ++ strJoin sep (t :: rest)

/-- Split a string at every `/`; `cur` is the reversed element being read. -/
def splitSlash : Str → Str → List Str
  | [], cur => [cur.reverse]
  | c :: cs, cur => if c = '/' then cur.reverse :: splitSlash cs [] else splitSlash cs (c :: cur)

/-! ## `path/filepath` -/

/-- One step of the lexical processing of `filepath.Clean`: `out` is the
reversed list of elements kept so far. -/
def cleanStep (rooted : Bool) (out : List Str) (elem : Str) : List Str :=
  if elem = [] ∨ elem = ['.'] then out
  else if elem = ['.', '.'] then
    match out with
    | top :: rest => if top = ['.', '.'] then elem :: out else rest
    | [] => if rooted then [] else [elem]
  else elem :: out

/-- The Go function `filepath.Clean` for slash-separated paths. -/
def Clean (path : Str) : Str :=
  if path = [] then ['.']
  else
    let rooted := hasPrefix path ['/']
    let out := ((splitSlash path []).foldl (cleanStep rooted) []).reverse
    if rooted then '/' :: strJoin ['/'] out
    else if out = [] then ['.'] else strJoin ['/'] out

/-- The Go function `filepath.Join`: the elements from the first non-empty one
on are joined with `/` and cleaned; all elements empty gives the empty string. -/
def Join : List Str → Str
  | [] => []
  | e :: rest => if e = [] then Join rest else Clean (strJoin ['/'] (e :: rest))

/-! ## `os.ExpandEnv` -/

/-- The Go function `os.isShellSpecialVar`. -/
def isShellSpecialVar (c : Char) : Bool :=
  c ∈ ['*', '#', '$', '@', '!', '?', '-', '0', '1', '2', '3', '4', '5', '6', '7', '8', '9']

/-- The Go function `os.isAlphaNum`. -/
def isAlphaNum (c : Char) : Bool :=
  c = '_' || ('0' ≤ c && c ≤ '9') || ('a' ≤ c && c ≤ 'z') || ('A' ≤ c && c ≤ 'Z')

/-- The scan for the closing brace in `os.getShellName`; `rest` is the string
after the opening brace. -/
def scanBrace (rest : Str) : Str × Nat :=
  let body := rest.takeWhile (fun c => c != '}')
  if body.length = rest.length then ([], 1)
  else if body = [] then ([], 2)
  else (body, body.length + 2)

/-- The Go function `os.getShellName`: the name that starts the string and the
number of characters it takes up.  Callers pass a non-empty string. -/
def getShellName (s : Str) : Str × Nat :=
  match s with
  | [] => ([], 0)
  | '{' :: rest =>
    match rest with
    | c :: '}' :: _ => if isShellSpecialVar c then ([c], 3) else scanBrace rest
    | _ => scanBrace rest
  | c :: _ =>
    if isShellSpecialVar c then ([c], 1)
    else
      let name := s.takeWhile isAlphaNum
      (name, name.length)

/-- The loop of the Go function `os.Expand`, on the rest of the string. -/
def expandLoop (mapping : Str → Str) : Nat → Str → Str
  | 0, s => s
  | _ + 1, [] => []
  | fuel + 1, c :: rest =>
    if c = '$' ∧ rest ≠ [] then
      let nw := getShellName rest
      let out := if nw.1 = [] ∧ nw.2 > 0 then [] else if nw.1 = [] then ['$'] else mapping nw.1
      out ++ expandLoop mapping fuel (rest.drop nw.2)
    else c :: expandLoop mapping fuel rest

/-- The Go function `os.ExpandEnv`, `getenv` being `os.Getenv`. -/
def ExpandEnv (getenv : Str → Str) (s : Str) : Str :=
  expandLoop getenv (s.length + 1) s


/-! ## Machine integers and time -/

/-- Wrap-around of Go arithmetic on `int` and `int64`. -/
def wrap64 (x : Int) : Int := (x + 9223372036854775808) % 18446744073709551616 - 9223372036854775808

/-- A Go `time.Time` without monotonic reading: Unix seconds, an `int64`, and
the nanoseconds within the second. -/
structure Time where
  sec : Int
  nsec : Int
  deriving DecidableEq, Repr

/-- The Go method `Time.Before`: it compares the seconds since year 1, which
are the Unix seconds plus 62135596800 in `int64` arithmetic, and then the
nanoseconds. -/
def Before (t u : Time) : Bool :=
  decide (wrap64 (t.sec + 62135596800) < wrap64 (u.sec + 62135596800)) ||
    (decide (wrap64 (t.sec + 62135596800) = wrap64 (u.sec + 62135596800)) &&
      decide (t.nsec < u.nsec))

/-- The Go method `Time.AddDate(0, 0, days)` in UTC, and in every zone whose
offset never changes: `time.Date` adds the days to the day count and
multiplies by 86400 in 64-bit arithmetic, so the seconds wrap around. -/
def utcAddDate (t : Time) (days : Int) : Time :=
  { sec := wrap64 (t.sec + days * 86400), nsec := t.nsec }

/-! ## The filesystem

Paths handed to the operating system are resolved to the list of their
elements below the root directory.  A filesystem state maps resolved paths to
entries as `lstat` sees them: every non-directory (regular file, symbolic
link, device) is an entry with `IsDir = false`.  The kernel reaches a place
through directories only and follows no symbolic link on the way; a link is an
entry like a file.  Each entry carries the outcome of the system calls that
can fail on it for reasons outside the program (permissions, I/O errors).
What `os.Stat` answers for a path depends on more than that (it follows
symbolic links), so it is an input of the model, a field of `Env`. -/

/-- A resolved absolute path: its elements from the root directory down. -/
abbrev Loc := List Str

/-- The error numbers that the modelled system calls return. -/
inductive Errno where
  | ENOENT
  | EACCES
  | ENOTDIR
  | ENOTEMPTY
  deriving DecidableEq, Repr

/-- The Go function `os.IsNotExist` on a returned error (`none` is `nil`). -/
def IsNotExist : Option Errno → Bool
  | some .ENOENT => true
  | _ => false

/-- The part of `os.FileInfo` that the program reads; `Size` in bytes. -/
structure FileInfo where
  IsDir : Bool
  ModTime : Time
  Size : Int
  deriving DecidableEq, Repr

/-- A filesystem entry: its file information and whether `lstat`, reading it
as a directory, and removing it fail on it. -/
structure Entry where
  info : FileInfo
  statErr : Bool
  readErr : Bool
  removeErr : Bool
  deriving DecidableEq, Repr

/-- A filesystem state; the first binding of a path is the entry at it. -/
abbrev FS := List (Loc × Entry)

/-- The entry at a path, if any. -/
def find : FS → Loc → Option Entry
  | [], _ => none
  | (q, e) :: rest, p => if q = p then some e else find rest p

/-- The name under which `q` is a direct child of `p`, if it is one. -/
def childName (p q : Loc) : Option Str :=
  match q.reverse with
  | [] => none
  | n :: r => if r.reverse = p then some n else none

/-- The names of the entries directly inside `p`, each once, in the order of
the state; `readDirNames` sorts them, and nothing modelled here depends on the
order. -/
def names (fs : FS) (p : Loc) : List Str :=
  (fs.filterMap (fun kv => childName p kv.1)).dedup

/-- Resolve one path element against the reversed list of elements so far. -/
def resolveStep (out : List Str) (elem : Str) : List Str :=
  if elem = [] ∨ elem = ['.'] then out
  else if elem = ['.', '.'] then out.tail
  else elem :: out

/-- The place that a path string names when the kernel can reach it: an
absolute path from the root, any other from the working directory `cwd`.
There are no symbolic links on the way, so `..` is the parent directory. -/
def resolve (cwd : Loc) (path : Str) : Loc :=
  let start := if hasPrefix path ['/'] then [] else cwd.reverse
  ((splitSlash path []).foldl resolveStep start).reverse

/-- The check that the kernel makes before it looks a path element up in the
directory `cur`: `cur` must be a directory.  The root directory always is. -/
def dirErr (fs : FS) (cur : Loc) : Option Errno :=
  if cur = [] then none
  else
    match find fs cur with
    | none => some .ENOENT
    | some e => if e.info.IsDir then none else some .ENOTDIR

/-- The error, if any, that the kernel meets while it takes the elements of a
path one by one, from the reversed list `out` of elements so far: every
element, an empty one, `.` and `..` included, is looked up in a directory. -/
def lookupErr (fs : FS) : List Str → List Str → Option Errno
  | _, [] => none
  | out, elem :: rest =>
    match dirErr fs out.reverse with
    | some err => some err
    | none => lookupErr fs (resolveStep out elem) rest

/-- The error, if any, that keeps the kernel from reaching the place that a
path string names: the empty path is `ENOENT`, and so is a path through a
missing directory; a path through a non-directory is `ENOTDIR`. -/
def resolveErr (cwd : Loc) (fs : FS) (path : Str) : Option Errno :=
  if path = [] then some .ENOENT
  else lookupErr fs (if hasPrefix path ['/'] then [] else cwd.reverse) (splitSlash path [])

/-- The last step of `lstat`, on the resolved path of a place that the kernel
has reached: the entry there, if there is one and `lstat` does not fail on
it. -/
def Lstat (fs : FS) (p : Loc) : Except Errno FileInfo :=
  match find fs p with
  | none => .error .ENOENT
  | some e => if e.statErr then .error .EACCES else .ok e.info

/-- The Go function `os.Lstat` on a path string. -/
def osLstat (cwd : Loc) (fs : FS) (path : Str) : Except Errno FileInfo :=
  match resolveErr cwd fs path with
  | some err => .error err
  | none => Lstat fs (resolve cwd path)

/-- The error returned by `os.Stat(path)`, `none` being `nil`, on a machine
without symbolic links, where `os.Stat` and `os.Lstat` agree. -/
def plainStat (cwd : Loc) (fs : FS) (path : Str) : Option Errno :=
  match osLstat cwd fs path with
  | .error err => some err
  | .ok _ => none

/-- The function `readDirNames` of `path/filepath`: the names inside a
directory. -/
def readDirNames (fs : FS) (p : Loc) : Except Errno (List Str) :=
  match find fs p with
  | none => .error .ENOENT
  | some e =>
    if !e.info.IsDir then .error .ENOTDIR
    else if e.readErr then .error .EACCES
    else .ok (names fs p)

/-- The Go function `os.Remove` on the resolved path of a place that the kernel
has reached: removes a non-directory or an empty directory, and returns the
new state.  The timestamps that the operating system keeps for the parent
directory are not modelled. -/
def Remove (fs : FS) (p : Loc) : Except Errno FS :=
  match find fs p with
  | none => .error .ENOENT
  | some e =>
    if e.removeErr then .error .EACCES
    else if e.info.IsDir && !(names fs p).isEmpty then .error .ENOTEMPTY
    else .ok (fs.filter (fun kv => decide (kv.1 ≠ p)))

/-! ## `filepath.Walk`

Every walk function of this program returns `nil`, so a walk is never cut
short and `filepath.Walk` itself returns `nil`: walk functions have no error
result here.  A walk function transforms the filesystem state and its own
accumulator. -/

/-- The type `filepath.WalkFunc`: path, file information (absent when `lstat`
failed), error, and the state it acts on. -/
abbrev WalkFunc (σ : Type) := Loc → Option FileInfo → Option Errno → FS × σ → FS × σ

/-- The recursive function `walk` of `path/filepath`; `fuel` bounds the depth
of the descent. -/
def walk {σ : Type} (fn : WalkFunc σ) : Nat → Loc → FileInfo → FS × σ → FS × σ
  | 0, _, _, w => w
  | fuel + 1, path, info, w =>
    if !info.IsDir then fn path (some info) none w
    else
      match readDirNames w.1 path with
      | .error err => fn path (some info) (some err) w
      | .ok names =>
        names.foldl
          (fun w name =>
            match Lstat w.1 (path ++ [name]) with
            | .error err => fn (path ++ [name]) none (some err) w
            | .ok fileInfo => walk fn fuel (path ++ [name]) fileInfo w)
          (fn path (some info) none w)

/-- The length of the longest path of a filesystem state. -/
def depth : FS → Nat
  | [] => 0
  | (q, _) :: rest => max q.length (depth rest)

/-- The Go function `filepath.Walk`.  No path is longer than `depth`, so the
descent has fuel to spare. -/
def Walk {σ : Type} (cwd : Loc) (root : Str) (fn : WalkFunc σ) (w : FS × σ) : FS × σ :=
  match osLstat cwd w.1 root with
  | .error err => fn (resolve cwd root) none (some err) w
  | .ok info => walk fn (depth w.1 + 1) (resolve cwd root) info w

/-! ## The process environment -/

/-- What the program reads from its environment: the home directory
(`os.UserHomeDir`, empty when it fails), the working directory, `os.Getenv`,
the clock `time.Now` in seconds since the epoch and nanoseconds, taken as one
reading for a whole command, the method `Time.AddDate(0, 0, days)` in the zone
of the process, and the error that `os.Stat` returns for a path in a state,
`none` being `nil`. -/
structure Env where
  home : Str
  cwd : Loc
  getenv : Str → Str
  now : Int
  nowNsec : Int
  addDate : Time → Int → Time
  stat : FS → Str → Option Errno

/-- The reading of `time.Now`. -/
def Env.clock (env : Env) : Time := { sec := env.now, nsec := env.nowNsec }

/-- The text `fmt.Sprintf("%d", n)`. -/
def fmtInt (n : Int) : Str :=
  if n < 0 then '-' :: Nat.toDigits 10 n.natAbs else Nat.toDigits 10 n.natAbs

/-! ## Package `config` -/

namespace config

/-- The Go struct `config.Tool`. -/
structure Tool where
  Name : Str
  Path : Str
  ConfigPath : Str
  DataPath : Str
  TempPaths : List Str
  Enabled : Bool
  deriving DecidableEq

/-- The Go struct `config.RetentionPolicy`. -/
structure RetentionPolicy where
  DebugLogs : Int
  TempFiles : Int
  ShellSnapshots : Int

/-- The Go struct `config.Config`, without the model table, which no modelled
function reads.  `Tools` lists the Go map in the order in which a `range` loop
visits it. -/
structure Config where
  Version : Str
  HomeDir : Str
  Tools : List (Str × Tool)
  Retention : RetentionPolicy

/-- The Go variable `config.defaultConfig`. -/
def defaultConfig : Config where
  Version := "1.0.0".toList
  HomeDir := "~/.ai-manager".toList
  Tools :=
    [("claude".toList,
        { Name := "Claude Code".toList, Path := "~/.claude".toList,
          ConfigPath := "settings.json".toList, DataPath := "projects".toList,
          TempPaths := ["debug".toList, "shell-snapshots".toList], Enabled := true }),
     ("gemini".toList,
        { Name := "Gemini CLI".toList, Path := "~/.gemini".toList,
          ConfigPath := "settings.json".toList, DataPath := "tmp".toList,
          TempPaths := ["tmp".toList], Enabled := true }),
     ("opencode".toList,
        { Name := "OpenCode".toList, Path := "~/.config/opencode".toList,
          ConfigPath := "settings.json".toList, DataPath := "projects".toList,
          TempPaths := ["node_modules".toList, ".cache".toList], Enabled := true })]
  Retention := { DebugLogs := 7, TempFiles := 7, ShellSnapshots := 30 }

end config

/-! ## Package `models` -/

namespace models

/-- The Go constant `models.StatusOK`. -/
def StatusOK : Str := "ok".toList
/-- The Go constant `models.StatusWarning`. -/
def StatusWarning : Str := "warning".toList
/-- The Go constant `models.StatusError`. -/
def StatusError : Str := "error".toList
/-- The Go constant `models.StatusNotFound`. -/
def StatusNotFound : Str := "not_found".toList

/-- The Go struct `models.DiskUsage`. -/
structure DiskUsage where
  Path : Str := []
  SizeBytes : Int := 0
  Files : Int := 0
  deriving DecidableEq

/-- The Go struct `models.ToolInfo`; fields that are not set hold Go zero
values. -/
structure ToolInfo where
  Name : Str := []
  Path : Str := []
  Found : Bool := false
  Enabled : Bool := false
  ConfigPath : Str := []
  DataPath : Str := []
  DiskUsage : DiskUsage := {}
  LastUsed : Int := 0
  Status : Str := []
  deriving DecidableEq

/-- The Go struct `models.CleanupResult`; `Error` holds the error message. -/
structure CleanupResult where
  Tool : Str := []
  Path : Str := []
  FilesDeleted : Int := 0
  SpaceFreed : Int := 0
  Duration : Int := 0
  Error : Option Str := none
  deriving DecidableEq

/-- The Go struct `models.ScanResult`. -/
structure ScanResult where
  Tools : List ToolInfo := []
  Total : Int := 0
  Enabled : Int := 0
  Timestamp : Int := 0
  deriving DecidableEq

/-- The Go function `models.expandHome`. -/
def expandHome (env : Env) (path : Str) : Str :=
  if hasPrefix path "~/".toList then
    let home := env.home
    if home ≠ [] then Join [home, path.drop 2] else path
  else path

/-- The walk function of `CalculateDiskUsage`; the accumulator is
`(size, count)`. -/
def diskUsageFn : WalkFunc (Int × Int) := fun _ info err w =>
  match err with
  | some _ => w
  | none =>
    match info with
    | none => w
    | some info =>
      if !info.IsDir then (w.1, (wrap64 (w.2.1 + info.Size), w.2.2 + 1)) else w

/-- The Go function `models.CalculateDiskUsage`; the walk returns `nil`, so the
error result is `nil`. -/
def CalculateDiskUsage (env : Env) (path : Str) (fs : FS) : FS × DiskUsage × Option Errno :=
  let path := expandHome env path
  let w := Walk env.cwd path diskUsageFn (fs, (0, 0))
  (w.1, { Path := path, SizeBytes := w.2.1, Files := w.2.2 }, none)

/-- The loop of `FormatBytes`: `for n := bytes / unit; n >= unit; n /= unit`
with body `div *= unit; exp++`. -/
def formatLoop : Nat → Int → Int → Int → Int × Int
  | 0, _, div, exp => (div, exp)
  | fuel + 1, n, div, exp =>
    if n ≥ 1024 then formatLoop fuel (Int.tdiv n 1024) (wrap64 (div * 1024)) (exp + 1)
    else (div, exp)

/-- The divisor and the unit index that `FormatBytes` computes for
`bytes ≥ 1024`; `n` shrinks at every turn, so `n` turns are enough. -/
def formatUnit (bytes : Int) : Int × Int :=
  formatLoop (Int.tdiv bytes 1024).toNat (Int.tdiv bytes 1024) 1024 0

/-- The Go function `models.FormatBytes`.  `fmtF a b` is the text
`fmt.Sprintf("%.1f", float64(a)/float64(b))`; an index outside the unit table
is a run-time panic, `none`. -/
def FormatBytes (fmtF : Int → Int → Str) (bytes : Int) : Option Str :=
  if bytes < 1024 then some (fmtInt bytes ++ " B".toList)
  else
    let de := formatUnit bytes
    if de.2 < 0 then none
    else
      match "KMGTPE".toList.get? de.2.toNat with
      | none => none
      | some c => some (fmtF bytes de.1 ++ [' ', c, 'B'])

end models

/-! ## Package `utils` -/

namespace utils

/-- The Go function `utils.ExpandPath`; `home` is `HomeDir()`. -/
def ExpandPath (env : Env) (path : Str) : Str :=
  let home := env.home
  if hasPrefix path "~/".toList then Join [home, path.drop 2]
  else ExpandEnv env.getenv path

/-- The Go function `utils.FormatSize`; its body is that of
`models.FormatBytes`, the loop included. -/
def FormatSize (fmtF : Int → Int → Str) (bytes : Int) : Option Str :=
  if bytes < 1024 then some (fmtInt bytes ++ " B".toList)
  else
    let de := models.formatUnit bytes
    if de.2 < 0 then none
    else
      match "KMGTPE".toList.get? de.2.toNat with
      | none => none
      | some c => some (fmtF bytes de.1 ++ [' ', c, 'B'])

end utils

/-! ## Package `cleanup` -/

namespace cleanup

open config models

/-- The Go function `cleanup.expandPath`. -/
def expandPath (env : Env) (path : Str) (home : Str) : Str :=
  if hasPrefix path "~/".toList then Join [home, path.drop 2]
  else ExpandEnv env.getenv path

/-- The walk function of `cleanPath`; the accumulator is `(deleted, freed)`. -/
def cleanFn (cutoff : Time) : WalkFunc (Int × Int) := fun filePath info err w =>
  match err with
  | some _ => w
  | none =>
    match info with
    | none => w
    | some info =>
      if !info.IsDir && Before info.ModTime cutoff then
        let size := info.Size
        match Remove w.1 filePath with
        | .ok fs => (fs, (w.2.1 + 1, wrap64 (w.2.2 + size)))
        | .error _ => w
      else w

/-- The Go method `Cleaner.cleanPath`: the new filesystem state and the pair
`(deleted, freed)`; `-days` is Go's negation of an `int`. -/
def cleanPath (env : Env) (path : Str) (days : Int) (fs : FS) : FS × (Int × Int) :=
  let cutoff := env.addDate env.clock (wrap64 (-days))
  Walk env.cwd path (cleanFn cutoff) (fs, (0, 0))

/-- The body of the loop of `CleanupTool` for one temp path. -/
def cleanupToolStep (cfg : Config) (env : Env) (basePath : Str)
    (w : FS × CleanupResult) (tempPath : Str) : FS × CleanupResult :=
  let fullPath := Join [basePath, tempPath]
  if IsNotExist (env.stat w.1 fullPath) then w
  else
    let r := cleanPath env fullPath cfg.Retention.TempFiles w.1
    (r.1, { w.2 with
              FilesDeleted := w.2.FilesDeleted + r.2.1
              SpaceFreed := wrap64 (w.2.SpaceFreed + r.2.2)
              Path := fullPath })

/-- The Go method `Cleaner.CleanupTool`. -/
def CleanupTool (cfg : Config) (env : Env) (_key : Str) (tool : Tool) (fs : FS) :
    FS × CleanupResult :=
  let result : CleanupResult := { Tool := tool.Name, Duration := 0 }
  let home := env.home
  let basePath := expandPath env tool.Path home
  tool.TempPaths.foldl (cleanupToolStep cfg env basePath) (fs, result)

/-- The loop of `CleanupAll` over the tool table. -/
def cleanupAllLoop (cfg : Config) (env : Env) :
    List (Str × Tool) → FS × List CleanupResult → FS × List CleanupResult
  | [], w => w
  | (key, tool) :: rest, w =>
    if !tool.Enabled then cleanupAllLoop cfg env rest w
    else
      let r := CleanupTool cfg env key tool w.1
      cleanupAllLoop cfg env rest (r.1, w.2 ++ [r.2])

/-- The Go method `Cleaner.CleanupAll`: the new filesystem state, the results
and the error. -/
def CleanupAll (cfg : Config) (env : Env) (fs : FS) :
    FS × List CleanupResult × Option Str :=
  let w := cleanupAllLoop cfg env cfg.Tools (fs, [])
  (w.1, w.2, none)

/-- The Go method `Cleaner.CleanupClaude`. -/
def CleanupClaude (cfg : Config) (env : Env) (fs : FS) :
    FS × CleanupResult × Option Str :=
  let home := env.home
  let result : CleanupResult := { Tool := "Claude Code".toList, Duration := 0 }
  let debugPath := Join [home, ".claude".toList, "debug".toList]
  let w1 : FS × CleanupResult :=
    if env.stat fs debugPath = none then
      let r := cleanPath env debugPath cfg.Retention.DebugLogs fs
      (r.1, { result with
                FilesDeleted := result.FilesDeleted + r.2.1
                SpaceFreed := wrap64 (result.SpaceFreed + r.2.2) })
    else (fs, result)
  let snapshotsPath := Join [home, ".claude".toList, "shell-snapshots".toList]
  let w2 : FS × CleanupResult :=
    if env.stat w1.1 snapshotsPath = none then
      let r := cleanPath env snapshotsPath cfg.Retention.ShellSnapshots w1.1
      (r.1, { w1.2 with
                FilesDeleted := w1.2.FilesDeleted + r.2.1
                SpaceFreed := wrap64 (w1.2.SpaceFreed + r.2.2) })
    else w1
  (w2.1, w2.2, none)

/-- The Go function `cleanup.FormatResult`.  `FilesDeleted % 10` is Go's
truncated remainder; `string(rune(n))` is the character with code `n`. -/
def FormatResult (fmtF : Int → Int → Str) (r : CleanupResult) : Option Str :=
  match r.Error with
  | some msg => some ("[Error] ".toList ++ msg)
  | none =>
    match FormatBytes fmtF r.SpaceFreed with
    | none => none
    | some freed =>
      some ("[Done] ".toList ++ r.Tool ++ ": ".toList ++ freed ++ " freed, ".toList ++
        [Char.ofNat (48 + Int.tmod r.FilesDeleted 10).toNat] ++ " files deleted".toList)

end cleanup

/-! ## Package `discovery` -/

namespace discovery

open config models

/-- The Go function `discovery.expandPath`. -/
def expandPath (env : Env) (path : Str) (home : Str) : Str :=
  if hasPrefix path "~/".toList then Join [home, path.drop 2]
  else ExpandEnv env.getenv path

/-- The Go method `Scanner.discoverTool`. -/
def discoverTool (env : Env) (_key : Str) (tool : Tool) (fs : FS) : FS × ToolInfo :=
  let info : ToolInfo :=
    { Name := tool.Name, Enabled := tool.Enabled,
      ConfigPath := tool.ConfigPath, DataPath := tool.DataPath }
  let home := env.home
  let toolPath := expandPath env tool.Path home
  let configPath := expandPath env tool.ConfigPath home
  if IsNotExist (env.stat fs toolPath) then
    (fs, { info with Found := false, Status := StatusNotFound })
  else
    let info := { info with Found := true, Path := toolPath }
    let info :=
      if IsNotExist (env.stat fs configPath) then { info with Status := StatusWarning }
      else { info with Status := StatusOK }
    let u := CalculateDiskUsage env toolPath fs
    match u.2.2 with
    | none => (u.1, { info with DiskUsage := u.2.1 })
    | some _ => (u.1, info)

/-- The loop of `Scan` over the tool table. -/
def scanLoop (env : Env) : List (Str × Tool) → FS × ScanResult → FS × ScanResult
  | [], w => w
  | (key, tool) :: rest, w =>
    if !tool.Enabled then scanLoop env rest w
    else
      let r := discoverTool env key tool w.1
      scanLoop env rest
        (r.1, { w.2 with Tools := w.2.Tools ++ [r.2], Enabled := w.2.Enabled + 1 })

/-- The Go method `Scanner.Scan`: the filesystem state after it, the result and
the error. -/
def Scan (cfg : Config) (env : Env) (fs : FS) : FS × ScanResult × Option Str :=
  let result : ScanResult := { Tools := [], Timestamp := env.now }
  let w := scanLoop env cfg.Tools (fs, result)
  (w.1, { w.2 with Total := (w.2.Tools.length : Int) }, none)

end discovery

/-! ## Package `cli`: the `cleanup` command -/

namespace cli

open config models

/-- The value of the variable `days` when the command runs: the flag is
declared by `cmd.Flags().IntVarP(&days, "days", "d", 7, ...)`, so it holds the
value given on the command line, or the declared default. -/
def daysFlag (given : Option Int) : Int :=
  match given with
  | some n => n
  | none => 7

/-- The configuration that `newCleanupCmd` hands to `cleanup.NewCleaner`;
`loaded` is the result of `config.Load`. -/
def cleanupConfig (loaded : Config) (given : Option Int) : Config :=
  let days := daysFlag given
  if days > 0 then { loaded with Retention := { loaded.Retention with TempFiles := days } }
  else loaded

/-- The run function of the `cleanup` command up to the printing of the
results. -/
def runCleanup (loaded : Config) (given : Option Int) (env : Env) (fs : FS) :
    FS × List CleanupResult × Option Str :=
  cleanup.CleanupAll (cleanupConfig loaded given) env fs

end cli

/-! ## Vocabulary of the statements -/

/-- The directory at `p` can be listed by the walk: it is there, it is a
directory, and neither `lstat` nor reading it fails. -/
def listable (fs : FS) (p : Loc) : Bool :=
  match find fs p with
  | some e => e.info.IsDir && !e.statErr && !e.readErr
  | none => false

/-- Every directory on the way from `p` down the elements `rest`, the last
one excluded, can be listed. -/
def reach (fs : FS) : Loc → List Str → Bool
  | _, [] => true
  | p, n :: rest => listable fs p && reach fs (p ++ [n]) rest

/-- The walk from `root` calls its walk function on `q` with the file
information of `q`: `q` lies under `root`, every directory from `root` down to
the parent of `q` can be listed, and `lstat` of `q` succeeds. -/
def Visited (fs : FS) (root q : Loc) : Prop :=
  ∃ rest e, q = root ++ rest ∧ reach fs root rest = true ∧
    find fs q = some e ∧ e.statErr = false

/-- The walk that `filepath.Walk(path, ...)` makes calls its walk function on
`q` with the file information of `q`: the kernel reaches the place that `path`
names, and the walk from there visits `q`. -/
def VisitedFrom (fs : FS) (cwd : Loc) (path : Str) (q : Loc) : Prop :=
  resolveErr cwd fs path = none ∧ Visited fs (resolve cwd path) q

/-- The cutoff that `cleanPath` computes: `time.Now().AddDate(0, 0, -days)`. -/
def cutoffOf (env : Env) (days : Int) : Time := env.addDate env.clock (wrap64 (-days))

/-- What `cleanPath` removes in a walk from `root`: the visited non-directories
older than the cutoff whose removal does not fail. -/
def Pruned (cutoff : Time) (fs : FS) (root q : Loc) : Prop :=
  ∃ rest e, q = root ++ rest ∧ reach fs root rest = true ∧ find fs q = some e ∧
    e.statErr = false ∧ e.info.IsDir = false ∧ Before e.info.ModTime cutoff = true ∧
    e.removeErr = false

/-- What `cleanPath(path, ...)` removes, when the kernel reaches the place that
`path` names. -/
def PrunedFrom (cutoff : Time) (fs : FS) (cwd : Loc) (path : Str) (q : Loc) : Prop :=
  resolveErr cwd fs path = none ∧ Pruned cutoff fs (resolve cwd path) q

/-- The seconds `x` are an `int64` value. -/
def InInt64 (x : Int) : Prop := -9223372036854775808 ≤ x ∧ x < 9223372036854775808

/-- The time `t` is one that Go represents without wrap-around: its Unix
seconds and its seconds since year 1 are `int64` values. -/
def Representable (t : Time) : Prop := InInt64 t.sec ∧ InInt64 (t.sec + 62135596800)

/-- The time `t` is earlier than `u`, by seconds and then by nanoseconds. -/
def Earlier (t u : Time) : Prop := t.sec < u.sec ∨ (t.sec = u.sec ∧ t.nsec < u.nsec)

/-- The size of the entry at `q`, zero when there is none. -/
def sizeAt (fs : FS) (q : Loc) : Int :=
  match find fs q with
  | some e => e.info.Size
  | none => 0

/-- The entries removed between two states: the paths that have an entry in
`fs` and none in `fs2`, each once. -/
def removedEntries (fs fs2 : FS) : List Loc :=
  ((fs.map Prod.fst).dedup).filter (fun q => (find fs2 q).isNone)

/-- The fuel left is enough for every path of the state below `p`. -/
def FuelFor (fs : FS) (p : Loc) (fuel : Nat) : Prop :=
  ∀ k e, find fs k = some e → k.length < p.length + fuel

/-- The state `res` comes from `w` by removing exactly the entries `L`, and
its tallies have grown by their number and, the byte total being an `int64`
value, by their sizes. -/
def Removes (w res : FS × (Int × Int)) (L : List Loc) : Prop :=
  L.Nodup ∧ (∀ q, find res.1 q = if q ∈ L then none else find w.1 q) ∧
    res.2.1 = w.2.1 + (L.length : Int) ∧
    (wrap64 w.2.2 = w.2.2 → res.2.2 = wrap64 (w.2.2 + (L.map (sizeAt w.1)).sum))

/-- Between the states `fs` and `fs2` nothing changed but that non-directory
entries at paths satisfying `P` were removed. -/
def Frame (P : Loc → Prop) (fs fs2 : FS) : Prop :=
  ∀ q, find fs2 q = find fs q ∨
    (find fs2 q = none ∧ P q ∧ ∃ e, find fs q = some e ∧ e.info.IsDir = false)

/-- The path `q` lies beneath one of the temp paths of the tool: beneath the
join of its expanded base path with one of its temp-file relative paths. -/
def UnderTemp (env : Env) (tool : config.Tool) (q : Loc) : Prop :=
  ∃ t, t ∈ tool.TempPaths ∧
    resolve env.cwd (Join [cleanup.expandPath env tool.Path env.home, t]) <+: q

/-- One temp path of a tool as the claim on `CleanupTool` speaks of it: its
full path, whether it counts, that is, whether `os.Stat` did not report that
it does not exist, and the count and byte total that `cleanPath` returns for
it. -/
structure TempRun where
  fullPath : Str
  counted : Bool
  deleted : Int
  freed : Int

/-- The temp paths of a tool in list order, each taken in the state left by
the cleanup of those before it: `cleanPath` runs on the ones that count, with
the temp-files threshold. -/
def tempPathRuns (cfg : config.Config) (env : Env) (basePath : Str) :
    List Str → FS → List TempRun
  | [], _ => []
  | t :: rest, fs =>
    let fullPath := Join [basePath, t]
    let r := cleanup.cleanPath env fullPath cfg.Retention.TempFiles fs
    let counted := !IsNotExist (env.stat fs fullPath)
    ⟨fullPath, counted, r.2.1, r.2.2⟩ ::
      tempPathRuns cfg env basePath rest (if counted then r.1 else fs)

/-- The full path of the last run that counts, the empty string when there
is none. -/
def lastCounted : List TempRun → Str
  | [] => []
  | run :: rest =>
    if (rest.filter (fun x => x.counted)).isEmpty then
      (if run.counted then run.fullPath else [])
    else lastCounted rest

/-- The runs over the temp paths of a tool, from its expanded base path. -/
def toolRuns (cfg : config.Config) (env : Env) (tool : config.Tool) (fs : FS) : List TempRun :=
  tempPathRuns cfg env (cleanup.expandPath env tool.Path env.home) tool.TempPaths fs

/-! ## A sample machine -/

/-- The resolved form of an absolute path. -/
def loc (path : String) : Loc := resolve [] path.toList

/-- A directory without failures. -/
def sampleDir : Entry := ⟨⟨true, ⟨0, 0⟩, 4096⟩, false, false, false⟩

/-- A regular file without failures, modified at the full second `modTime`. -/
def sampleFile (modTime size : Int) : Entry :=
  ⟨⟨false, ⟨modTime, 0⟩, size⟩, false, false, false⟩

/-- A process in `/work` of a user with home `/home/u`, on day 100 of the
epoch in UTC, with the one environment variable `VAR=data`, on a machine
without symbolic links. -/
def sampleEnv : Env where
  home := "/home/u".toList
  cwd := loc "/work"
  getenv := fun name => if name = "VAR".toList then "data".toList else []
  now := 100 * 86400
  nowNsec := 0
  addDate := utcAddDate
  stat := plainStat (loc "/work")

/-- A home directory with a Claude installation: its settings file, a debug
log of 8 days and one of 1 day, and a shell snapshot of 10 days. -/
def sampleFS : FS :=
  [ (loc "/", sampleDir),
    (loc "/home", sampleDir),
    (loc "/home/u", sampleDir),
    (loc "/home/u/.claude", sampleDir),
    (loc "/home/u/.claude/settings.json", sampleFile (50 * 86400) 10),
    (loc "/home/u/.claude/debug", sampleDir),
    (loc "/home/u/.claude/debug/old.log", sampleFile (92 * 86400) 100),
    (loc "/home/u/.claude/debug/new.log", sampleFile (99 * 86400) 50),
    (loc "/home/u/.claude/shell-snapshots", sampleDir),
    (loc "/home/u/.claude/shell-snapshots/snap.sh", sampleFile (90 * 86400) 200),
    (loc "/work", sampleDir) ]

/-- The default configuration with `temp_files_days` set to 30, as loaded from
a configuration file. -/
def thirtyDayConfig : config.Config :=
  { config.defaultConfig with
    Retention := { config.defaultConfig.Retention with TempFiles := 30 } }

/-- The entry of the default tool table for Claude Code. -/
def claudeTool : config.Tool :=
  { Name := "Claude Code".toList, Path := "~/.claude".toList,
    ConfigPath := "settings.json".toList, DataPath := "projects".toList,
    TempPaths := ["debug".toList, "shell-snapshots".toList], Enabled := true }

/-- A directory `/big` with two files of `2^62` bytes each, last modified at
the epoch. -/
def hugeFS : FS :=
  [ (loc "/", sampleDir),
    (loc "/big", sampleDir),
    (loc "/big/a", sampleFile 0 4611686018427387904),
    (loc "/big/b", sampleFile 0 4611686018427387904) ]

/-- A tool whose temp paths are the two files of `hugeFS`. -/
def hugeTool : config.Tool :=
  { Name := "Huge".toList, Path := "/big".toList, ConfigPath := [], DataPath := [],
    TempPaths := ["a".toList, "b".toList], Enabled := true }

/-- A tool like Claude Code whose one temp path lies beneath the settings
file. -/
def nestedTool : config.Tool :=
  { claudeTool with TempPaths := ["settings.json/cache".toList] }

/-- A disabled tool with the base path and the temp paths of Claude Code. -/
def legacyTool : config.Tool :=
  { claudeTool with Name := "Legacy".toList, Enabled := false }

/-- A tool table with Claude Code enabled and the legacy tool disabled. -/
def sharedConfig : config.Config :=
  { config.defaultConfig with
    Tools := [("claude".toList, claudeTool), ("legacy".toList, legacyTool)] }

/-- The sample filesystem with the settings file moved from the Claude
directory to the working directory. -/
def movedSettingsFS : FS :=
  (loc "/work/settings.json", sampleFile (50 * 86400) 10) ::
    sampleFS.filter (fun kv => decide (kv.1 ≠ loc "/home/u/.claude/settings.json"))

end AiManager

namespace AiManager

/-! ## Lemmas on the filesystem model -/

theorem find_filter_ne (fs : FS) (p q : Loc) :
    find (fs.filter (fun kv => decide (kv.1 ≠ p))) q = if q = p then none else find fs q := by
  induction fs with
  | nil => simp [find]
  | cons kv rest ih =>
    obtain ⟨k, e⟩ := kv
    by_cases hk : k = p
    · subst hk
      simp only [List.filter, ne_eq, not_true_eq_false, decide_False, find, ih]
      by_cases hq : q = k
      · simp [hq]
      · have : ¬ k = q := fun h => hq h.symm
        simp [hq, this]
    · simp only [List.filter, ne_eq, hk, not_false_eq_true, decide_True, find, ih]
      by_cases hkq : k = q
      · subst hkq; simp [hk]
      · simp [hkq]

theorem find_some_mem {fs : FS} {p : Loc} {e : Entry} (h : find fs p = some e) :
    (p, e) ∈ fs := by
  induction fs with
  | nil => simp [find] at h
  | cons kv rest ih =>
    obtain ⟨k, e2⟩ := kv
    by_cases hk : k = p
    · subst hk; simp [find] at h; simp [h]
    · simp [find, hk] at h; exact List.mem_cons_of_mem _ (ih h)

theorem find_isSome_of_mem {fs : FS} {p : Loc} {e : Entry} (h : (p, e) ∈ fs) :
    ∃ e2, find fs p = some e2 := by
  induction fs with
  | nil => simp at h
  | cons kv rest ih =>
    obtain ⟨k, e2⟩ := kv
    by_cases hk : k = p
    · exact ⟨e2, by simp [find, hk]⟩
    · have : (p, e) ∈ rest := by
        rcases List.mem_cons.1 h with h1 | h1
        · exact absurd (congrArg Prod.fst h1).symm hk
        · exact h1
      obtain ⟨e3, h3⟩ := ih this
      exact ⟨e3, by simp [find, hk, h3]⟩

theorem length_le_depth {fs : FS} {p : Loc} {e : Entry} (h : (p, e) ∈ fs) :
    p.length ≤ depth fs := by
  induction fs with
  | nil => simp at h
  | cons kv rest ih =>
    obtain ⟨k, e2⟩ := kv
    rcases List.mem_cons.1 h with h1 | h1
    · have : p = k := congrArg Prod.fst h1
      subst this; simp [depth]
    · have := ih h1
      simp only [depth]; omega

theorem childName_append (p : Loc) (n : Str) : childName p (p ++ [n]) = some n := by
  simp [childName]

theorem mem_names_of_find {fs : FS} {p : Loc} {n : Str} {e : Entry}
    (h : find fs (p ++ [n]) = some e) : n ∈ names fs p := by
  unfold names
  rw [List.mem_dedup, List.mem_filterMap]
  exact ⟨(p ++ [n], e), find_some_mem h, childName_append p n⟩

theorem names_nodup (fs : FS) (p : Loc) : (names fs p).Nodup := List.nodup_dedup _

theorem wrap64_wrap64_add (a b : Int) : wrap64 (wrap64 a + b) = wrap64 (a + b) := by
  unfold wrap64; omega

theorem wrap64_of_range {a : Int} (h1 : -9223372036854775808 ≤ a) (h2 : a < 9223372036854775808) :
    wrap64 a = a := by
  unfold wrap64; omega

/-! ## The library model on examples -/

theorem Clean_examples :
    Clean "a/b/../../..".toList = "..".toList ∧
    Clean "../../a".toList = "../../a".toList ∧
    Clean "/../a//b/./c/..".toList = "/a/b".toList ∧
    Clean "".toList = ".".toList ∧
    Clean "/".toList = "/".toList ∧
    Join ["/home/u".toList, ".claude".toList, "debug".toList] = "/home/u/.claude/debug".toList ∧
    Join ["".toList, "x".toList] = "x".toList := by
  decide

theorem ExpandEnv_examples :
    ExpandEnv sampleEnv.getenv "$VAR/x".toList = "data/x".toList ∧
    ExpandEnv sampleEnv.getenv "a${VAR}b$".toList = "adatab$".toList ∧
    ExpandEnv sampleEnv.getenv "$NONE/x".toList = "/x".toList ∧
    ExpandEnv sampleEnv.getenv "settings.json".toList = "settings.json".toList := by
  decide

theorem time_examples :
    utcAddDate { sec := 100 * 86400, nsec := 5 } (-7) = { sec := 93 * 86400, nsec := 5 } ∧
    utcAddDate { sec := 100 * 86400, nsec := 5 } (-4611686018427387904) =
      { sec := 100 * 86400, nsec := 5 } ∧
    cutoffOf sampleEnv 7 = { sec := 93 * 86400, nsec := 0 } ∧
    Before { sec := 93 * 86400, nsec := 4 } { sec := 93 * 86400, nsec := 5 } = true ∧
    Before { sec := 93 * 86400, nsec := 5 } { sec := 93 * 86400, nsec := 5 } = false ∧
    Before { sec := 92 * 86400, nsec := 9 } { sec := 93 * 86400, nsec := 5 } = true := by
  decide

theorem resolve_examples :
    resolve (loc "/work") "settings.json".toList = loc "/work/settings.json" ∧
    resolve (loc "/work") "/home/u/.claude".toList = ["home".toList, "u".toList, ".claude".toList] ∧
    resolve (loc "/work") "../home/./u".toList = loc "/home/u" := by
  decide

theorem cleanPath_example :
    (cleanup.cleanPath sampleEnv "/home/u/.claude".toList 7 sampleFS).2 = (3, 310) ∧
    (cleanup.cleanPath sampleEnv "/home/u/.claude/debug".toList 7 sampleFS).2 = (1, 100) ∧
    (cleanup.cleanPath sampleEnv "/home/u/.claude/debug".toList 7 sampleFS).1 =
      sampleFS.filter (fun kv => decide (kv.1 ≠ loc "/home/u/.claude/debug/old.log")) := by
  decide

/-! ## Walks that only read -/

theorem foldl_fst_eq {σ : Type} (f : FS × σ → Str → FS × σ)
    (hf : ∀ w n, (f w n).1 = w.1) (ns : List Str) (w : FS × σ) :
    (ns.foldl f w).1 = w.1 := by
  induction ns generalizing w with
  | nil => rfl
  | cons n rest ih => simp only [List.foldl]; rw [ih, hf]

theorem walk_fst_eq {σ : Type} (fn : WalkFunc σ)
    (hfn : ∀ p i e w, (fn p i e w).1 = w.1) :
    ∀ (fuel : Nat) (p : Loc) (info : FileInfo) (w : FS × σ),
      (walk fn fuel p info w).1 = w.1 := by
  intro fuel
  induction fuel with
  | zero => intro p info w; rfl
  | succ fuel ih =>
    intro p info w
    unfold walk
    split
    · exact hfn _ _ _ _
    · split
      · exact hfn _ _ _ _
      · rw [foldl_fst_eq]
        · exact hfn _ _ _ _
        · intro w2 n
          split
          · exact hfn _ _ _ _
          · exact ih _ _ _

theorem Walk_fst_eq {σ : Type} (fn : WalkFunc σ)
    (hfn : ∀ p i e w, (fn p i e w).1 = w.1) (cwd : Loc) (root : Str) (w : FS × σ) :
    (Walk cwd root fn w).1 = w.1 := by
  unfold Walk
  split
  · exact hfn _ _ _ _
  · exact walk_fst_eq fn hfn _ _ _ _

theorem diskUsageFn_fst (p : Loc) (i : Option FileInfo) (e : Option Errno) (w : FS × (Int × Int)) :
    (models.diskUsageFn p i e w).1 = w.1 := by
  unfold models.diskUsageFn
  split
  · rfl
  · split
    · rfl
    · split <;> rfl

theorem CalculateDiskUsage_fst (env : Env) (path : Str) (fs : FS) :
    (models.CalculateDiskUsage env path fs).1 = fs := by
  unfold models.CalculateDiskUsage
  exact Walk_fst_eq _ diskUsageFn_fst _ _ _

theorem discoverTool_fst (env : Env) (key : Str) (tool : config.Tool) (fs : FS) :
    (discovery.discoverTool env key tool fs).1 = fs := by
  unfold discovery.discoverTool
  simp only
  split
  · rfl
  · split <;> exact CalculateDiskUsage_fst _ _ _

theorem scanLoop_fst (env : Env) (tools : List (Str × config.Tool)) (w : FS × models.ScanResult) :
    (discovery.scanLoop env tools w).1 = w.1 := by
  induction tools generalizing w with
  | nil => rfl
  | cons kt rest ih =>
    obtain ⟨key, tool⟩ := kt
    unfold discovery.scanLoop
    split
    · exact ih _
    · rw [ih]; exact discoverTool_fst _ _ _ _

/-! ## The pruning walk -/

theorem listable_congr {fs1 fs2 : FS} {p : Loc} (h : find fs1 p = find fs2 p) :
    listable fs1 p = listable fs2 p := by
  unfold listable; rw [h]

theorem reach_congr {fs1 fs2 : FS} :
    ∀ (rest : List Str) (p : Loc), (∀ x, p <+: x → find fs1 x = find fs2 x) →
      reach fs1 p rest = reach fs2 p rest
  | [], _, _ => rfl
  | n :: rest, p, h => by
    simp only [reach]
    rw [listable_congr (h p (List.prefix_refl p)),
      reach_congr rest (p ++ [n]) (fun x hx => h x ((List.prefix_append p [n]).trans hx))]

theorem Pruned_of_congr {cutoff : Time} {fs1 fs2 : FS} {p q : Loc}
    (h : ∀ x, p <+: x → find fs1 x = find fs2 x) (hp : Pruned cutoff fs1 p q) :
    Pruned cutoff fs2 p q := by
  obtain ⟨rest, e, hq, hr, hf, more⟩ := hp
  refine ⟨rest, e, hq, ?_, ?_, more⟩
  · rw [← reach_congr rest p h]; exact hr
  · rw [← h q (hq ▸ List.prefix_append p rest)]; exact hf

theorem Pruned_congr {cutoff : Time} {fs1 fs2 : FS} {p : Loc}
    (h : ∀ x, p <+: x → find fs1 x = find fs2 x) (q : Loc) :
    Pruned cutoff fs1 p q ↔ Pruned cutoff fs2 p q :=
  ⟨Pruned_of_congr h, Pruned_of_congr (fun x hx => (h x hx).symm)⟩

theorem Pruned_under {cutoff : Time} {fs : FS} {p q : Loc} (h : Pruned cutoff fs p q) :
    p <+: q := by
  obtain ⟨rest, _, hq, _⟩ := h
  exact hq ▸ List.prefix_append p rest

theorem listable_true {fs : FS} {p : Loc} (h : listable fs p = true) :
    ∃ e, find fs p = some e ∧ e.info.IsDir = true ∧ e.statErr = false ∧ e.readErr = false := by
  unfold listable at h
  split at h
  · rename_i e he
    simp only [Bool.and_eq_true, Bool.not_eq_true'] at h
    exact ⟨e, he, h.1.1, h.1.2, h.2⟩
  · exact absurd h (by simp)

theorem Pruned_root {cutoff : Time} {fs : FS} {p q : Loc} (h : Pruned cutoff fs p q) :
    ∃ e, find fs p = some e ∧ e.statErr = false := by
  obtain ⟨rest, e, hq, hr, hf, hs, _⟩ := h
  cases rest with
  | nil =>
    simp only [List.append_nil] at hq
    subst hq
    exact ⟨e, hf, hs⟩
  | cons n r =>
    simp only [reach, Bool.and_eq_true] at hr
    obtain ⟨e2, h1, _, h3, _⟩ := listable_true hr.1
    exact ⟨e2, h1, h3⟩

theorem Pruned_nondir {cutoff : Time} {fs : FS} {p q : Loc} {e : Entry}
    (hf : find fs p = some e) (hd : e.info.IsDir = false) :
    Pruned cutoff fs p q ↔
      q = p ∧ e.statErr = false ∧ Before e.info.ModTime cutoff = true ∧
        e.removeErr = false := by
  constructor
  · rintro ⟨rest, e2, hq, hr, hf2, hs, _, ht, hrm⟩
    cases rest with
    | nil =>
      simp only [List.append_nil] at hq
      subst hq
      rw [hf] at hf2
      cases hf2
      exact ⟨rfl, hs, ht, hrm⟩
    | cons n r =>
      simp only [reach, Bool.and_eq_true] at hr
      obtain ⟨e3, h1, h2, _⟩ := listable_true hr.1
      rw [hf] at h1
      cases h1
      rw [hd] at h2
      exact absurd h2 (by simp)
  · rintro ⟨rfl, hs, ht, hrm⟩
    exact ⟨[], e, by simp, rfl, hf, hs, hd, ht, hrm⟩

theorem Pruned_dir {cutoff : Time} {fs : FS} {p q : Loc} {e : Entry}
    (hf : find fs p = some e) (hd : e.info.IsDir = true) :
    Pruned cutoff fs p q ↔
      listable fs p = true ∧ ∃ n, n ∈ names fs p ∧ Pruned cutoff fs (p ++ [n]) q := by
  constructor
  · rintro ⟨rest, e2, hq, hr, hf2, hs, hd2, ht, hrm⟩
    cases rest with
    | nil =>
      simp only [List.append_nil] at hq
      subst hq
      rw [hf] at hf2
      cases hf2
      rw [hd] at hd2
      exact absurd hd2 (by simp)
    | cons n r =>
      simp only [reach, Bool.and_eq_true] at hr
      have hp : Pruned cutoff fs (p ++ [n]) q :=
        ⟨r, e2, by simp [hq], hr.2, hf2, hs, hd2, ht, hrm⟩
      obtain ⟨e3, h3, _⟩ := Pruned_root hp
      exact ⟨hr.1, n, mem_names_of_find h3, hp⟩
  · rintro ⟨hl, n, _, r, e2, hq, hr, more⟩
    exact ⟨n :: r, e2, by simp [hq], by simp [reach, hl, hr], more⟩

theorem Removes_nil (w : FS × (Int × Int)) : Removes w w [] := by
  refine ⟨List.nodup_nil, fun q => by simp, by simp, fun h => ?_⟩
  simp [h]

theorem Removes_find_some {w res : FS × (Int × Int)} {L : List Loc} (h : Removes w res L)
    {k : Loc} {e : Entry} (hk : find res.1 k = some e) : find w.1 k = some e := by
  have := h.2.1 k
  by_cases hm : k ∈ L
  · rw [if_pos hm] at this; rw [this] at hk; cases hk
  · rw [if_neg hm] at this; rw [← this]; exact hk

theorem Removes_append {w w2 w3 : FS × (Int × Int)} {L1 L2 : List Loc}
    (h1 : Removes w w2 L1) (h2 : Removes w2 w3 L2) (hd : ∀ q, q ∈ L2 → q ∉ L1) :
    Removes w w3 (L1 ++ L2) := by
  obtain ⟨n1, f1, d1, t1⟩ := h1
  obtain ⟨n2, f2, d2, t2⟩ := h2
  refine ⟨?_, ?_, ?_, ?_⟩
  · rw [List.nodup_append]
    exact ⟨n1, n2, fun a ha hb => hd a hb ha⟩
  · intro q
    rw [f2 q, f1 q]
    by_cases hq1 : q ∈ L1 <;> by_cases hq2 : q ∈ L2 <;> simp [hq1, hq2]
  · rw [d2, d1]; simp only [List.length_append]; push_cast; ring
  · intro hw
    have e1 := t1 hw
    have hw2 : wrap64 w2.2.2 = w2.2.2 := by
      rw [e1]; unfold wrap64; omega
    rw [t2 hw2, e1, wrap64_wrap64_add]
    have hs : L2.map (sizeAt w2.1) = L2.map (sizeAt w.1) := by
      apply List.map_congr_left
      intro q hq
      unfold sizeAt
      rw [f1 q, if_neg (hd q hq)]
    rw [hs, List.map_append, List.sum_append, add_assoc]

theorem cleanFn_err (cutoff : Time) (p : Loc) (i : Option FileInfo) (err : Errno)
    (w : FS × (Int × Int)) : cleanup.cleanFn cutoff p i (some err) w = w := rfl

theorem cleanFn_dir (cutoff : Time) (p : Loc) (i : FileInfo) (hd : i.IsDir = true)
    (w : FS × (Int × Int)) : cleanup.cleanFn cutoff p (some i) none w = w := by
  simp [cleanup.cleanFn, hd]

theorem sibling_eq {p x : Loc} {n m : Str} (h1 : p ++ [n] <+: x) (h2 : p ++ [m] <+: x) :
    n = m := by
  obtain ⟨r1, e1⟩ := h1
  obtain ⟨r2, e2⟩ := h2
  rw [← e2, List.append_assoc, List.append_assoc] at e1
  have := List.append_cancel_left e1
  simp only [List.singleton_append, List.cons.injEq] at this
  exact this.1

theorem cleanFn_file (cutoff : Time) (p : Loc) (e : Entry) (w : FS × (Int × Int))
    (hf : find w.1 p = some e) (hs : e.statErr = false) (hd : e.info.IsDir = false) :
    ∃ L, Removes w (cleanup.cleanFn cutoff p (some e.info) none w) L ∧
      ∀ q, q ∈ L ↔ Pruned cutoff w.1 p q := by
  by_cases hold : Before e.info.ModTime cutoff = true
  · cases hrm : e.removeErr with
    | true =>
      refine ⟨[], ?_, ?_⟩
      · have : cleanup.cleanFn cutoff p (some e.info) none w = w := by
          simp [cleanup.cleanFn, hd, hold, Remove, hf, hrm]
        rw [this]; exact Removes_nil w
      · intro q
        rw [Pruned_nondir hf hd]
        simp [hrm]
    | false =>
      refine ⟨[p], ?_, ?_⟩
      · have : cleanup.cleanFn cutoff p (some e.info) none w =
            (w.1.filter (fun kv => decide (kv.1 ≠ p)),
              (w.2.1 + 1, wrap64 (w.2.2 + e.info.Size))) := by
          simp [cleanup.cleanFn, hd, hold, Remove, hf, hrm]
        rw [this]
        refine ⟨List.nodup_singleton p, fun q => ?_, by simp, fun _ => ?_⟩
        · simp only [List.mem_singleton]
          exact find_filter_ne w.1 p q
        · simp [sizeAt, hf]
      · intro q
        rw [Pruned_nondir hf hd]
        simp [hs, hold, hrm]
  · refine ⟨[], ?_, ?_⟩
    · have : cleanup.cleanFn cutoff p (some e.info) none w = w := by
        simp [cleanup.cleanFn, hd, hold]
      rw [this]; exact Removes_nil w
    · intro q
      rw [Pruned_nondir hf hd]
      simp [hold]

theorem fold_clean (cutoff : Time) (fuel : Nat) (p : Loc)
    (IH : ∀ (c : Loc) (e : Entry) (w : FS × (Int × Int)), find w.1 c = some e →
      e.statErr = false → FuelFor w.1 c fuel →
      ∃ L, Removes w (walk (cleanup.cleanFn cutoff) fuel c e.info w) L ∧
        ∀ q, q ∈ L ↔ Pruned cutoff w.1 c q) :
    ∀ (ns : List Str), ns.Nodup → ∀ (w : FS × (Int × Int)), FuelFor w.1 p (fuel + 1) →
      ∃ L, Removes w
          (ns.foldl
            (fun w name =>
              match Lstat w.1 (p ++ [name]) with
              | .error err => cleanup.cleanFn cutoff (p ++ [name]) none (some err) w
              | .ok fileInfo => walk (cleanup.cleanFn cutoff) fuel (p ++ [name]) fileInfo w)
            w) L ∧
        ∀ q, q ∈ L ↔ ∃ n, n ∈ ns ∧ Pruned cutoff w.1 (p ++ [n]) q := by
  intro ns
  induction ns with
  | nil =>
    intro _ w _
    exact ⟨[], Removes_nil w, fun q => by simp⟩
  | cons n rest ih =>
    intro hnd w hfuel
    have hn : n ∉ rest := (List.nodup_cons.1 hnd).1
    have hrest : rest.Nodup := (List.nodup_cons.1 hnd).2
    -- the step at `n`
    have hstep : ∃ w2 L1, w2 = (match Lstat w.1 (p ++ [n]) with
          | .error err => cleanup.cleanFn cutoff (p ++ [n]) none (some err) w
          | .ok fileInfo => walk (cleanup.cleanFn cutoff) fuel (p ++ [n]) fileInfo w) ∧
        Removes w w2 L1 ∧ ∀ q, q ∈ L1 ↔ Pruned cutoff w.1 (p ++ [n]) q := by
      cases hfc : find w.1 (p ++ [n]) with
      | none =>
        refine ⟨w, [], ?_, Removes_nil w, fun q => ?_⟩
        · simp [Lstat, hfc, cleanFn_err]
        · constructor
          · intro h; simp at h
          · intro h
            obtain ⟨e, he, _⟩ := Pruned_root h
            rw [hfc] at he; cases he
      | some e =>
        cases hse : e.statErr with
        | true =>
          refine ⟨w, [], ?_, Removes_nil w, fun q => ?_⟩
          · simp [Lstat, hfc, hse, cleanFn_err]
          · constructor
            · intro h; simp at h
            · intro h
              obtain ⟨e2, he, hs2⟩ := Pruned_root h
              rw [hfc] at he; cases he
              rw [hse] at hs2; cases hs2
        | false =>
          have hfu : FuelFor w.1 (p ++ [n]) fuel := by
            intro k e2 hk
            have := hfuel k e2 hk
            simp only [List.length_append, List.length_singleton]; omega
          obtain ⟨L1, hR, hL⟩ := IH (p ++ [n]) e w hfc hse hfu
          exact ⟨_, L1, by simp [Lstat, hfc, hse], hR, hL⟩
    obtain ⟨w2, L1, hw2, hR1, hL1⟩ := hstep
    have hfuel2 : FuelFor w2.1 p (fuel + 1) := fun k e hk => hfuel k e (Removes_find_some hR1 hk)
    obtain ⟨L2, hR2, hL2⟩ := ih hrest w2 hfuel2
    -- the state seen by the later names is the old one below them
    have hcongr : ∀ m, m ∈ rest → ∀ x, p ++ [m] <+: x → find w2.1 x = find w.1 x := by
      intro m hm x hx
      rw [hR1.2.1 x]
      by_cases hxl : x ∈ L1
      · have := sibling_eq (Pruned_under ((hL1 x).1 hxl)) hx
        exact absurd (this ▸ hm) hn
      · rw [if_neg hxl]
    have hdisj : ∀ q, q ∈ L2 → q ∉ L1 := by
      intro q hq2 hq1
      obtain ⟨m, hm, hpm⟩ := (hL2 q).1 hq2
      have := sibling_eq (Pruned_under ((hL1 q).1 hq1)) (Pruned_under hpm)
      exact absurd (this ▸ hm) hn
    refine ⟨L1 ++ L2, ?_, fun q => ?_⟩
    · simp only [List.foldl]
      rw [← hw2]
      exact Removes_append hR1 hR2 hdisj
    · rw [List.mem_append, hL1 q, hL2 q]
      constructor
      · rintro (h | ⟨m, hm, hpm⟩)
        · exact ⟨n, List.mem_cons_self _ _, h⟩
        · exact ⟨m, List.mem_cons_of_mem _ hm, (Pruned_congr (hcongr m hm) q).1 hpm⟩
      · rintro ⟨m, hm, hpm⟩
        rcases List.mem_cons.1 hm with rfl | hm2
        · exact Or.inl hpm
        · exact Or.inr ⟨m, hm2, (Pruned_congr (hcongr m hm2) q).2 hpm⟩

theorem walk_clean (cutoff : Time) :
    ∀ (fuel : Nat) (p : Loc) (e : Entry) (w : FS × (Int × Int)), find w.1 p = some e →
      e.statErr = false → FuelFor w.1 p fuel →
      ∃ L, Removes w (walk (cleanup.cleanFn cutoff) fuel p e.info w) L ∧
        ∀ q, q ∈ L ↔ Pruned cutoff w.1 p q := by
  intro fuel
  induction fuel with
  | zero =>
    intro p e w hf _ hfuel
    have := hfuel p e hf
    omega
  | succ fuel ih =>
    intro p e w hf hs hfuel
    unfold walk
    cases hd : e.info.IsDir with
    | false =>
      simp only [Bool.not_false, if_true]
      exact cleanFn_file cutoff p e w hf hs hd
    | true =>
      simp only [Bool.not_true, Bool.false_eq_true, if_false]
      cases hr : e.readErr with
      | true =>
        refine ⟨[], ?_, fun q => ?_⟩
        · simp only [readDirNames, hf, hd, hr, Bool.not_true, Bool.false_eq_true, if_false,
            if_true, cleanFn_err]
          exact Removes_nil w
        · rw [Pruned_dir hf hd]
          simp [listable, hf, hr]
      | false =>
        simp only [readDirNames, hf, hd, hr, Bool.not_true, Bool.false_eq_true, if_false,
          cleanFn_dir cutoff p e.info hd w]
        obtain ⟨L, hR, hL⟩ := fold_clean cutoff fuel p ih (names w.1 p) (names_nodup _ _) w hfuel
        refine ⟨L, hR, fun q => ?_⟩
        rw [hL q, Pruned_dir hf hd]
        simp [listable, hf, hd, hs, hr]

theorem cleanPath_spec (env : Env) (path : Str) (days : Int) (fs : FS) :
    ∃ L, Removes (fs, (0, 0)) (cleanup.cleanPath env path days fs) L ∧
      ∀ q, q ∈ L ↔ PrunedFrom (cutoffOf env days) fs env.cwd path q := by
  have hc : env.addDate env.clock (wrap64 (-days)) = cutoffOf env days := rfl
  unfold cleanup.cleanPath Walk osLstat PrunedFrom
  simp only [hc]
  cases hp : resolveErr env.cwd fs path with
  | some err =>
    refine ⟨[], ?_, fun q => ?_⟩
    · simp only [cleanFn_err]
      exact Removes_nil _
    · simp
  | none =>
    simp only
    cases hf : find fs (resolve env.cwd path) with
    | none =>
      refine ⟨[], ?_, fun q => ?_⟩
      · simp only [Lstat, hf, cleanFn_err]
        exact Removes_nil _
      · constructor
        · intro h; simp at h
        · rintro ⟨_, h⟩
          obtain ⟨e, he, _⟩ := Pruned_root h
          rw [hf] at he; cases he
    | some e =>
      cases hs : e.statErr with
      | true =>
        refine ⟨[], ?_, fun q => ?_⟩
        · simp only [Lstat, hf, hs, if_true, cleanFn_err]
          exact Removes_nil _
        · constructor
          · intro h; simp at h
          · rintro ⟨_, h⟩
            obtain ⟨e2, he, hs2⟩ := Pruned_root h
            rw [hf] at he; cases he
            rw [hs] at hs2; cases hs2
      | false =>
        simp only [Lstat, hf, hs, Bool.false_eq_true, if_false]
        have hfuel : FuelFor fs (resolve env.cwd path) (depth fs + 1) := by
          intro k e2 hk
          have : k.length ≤ depth fs := length_le_depth (find_some_mem hk)
          omega
        obtain ⟨L, hR, hL⟩ := walk_clean (cutoffOf env days) _ _ e (fs, (0, 0)) hf hs hfuel
        exact ⟨L, hR, fun q => by rw [hL q]; simp [hp]⟩

theorem cleanPath_find (env : Env) (path : Str) (days : Int) (fs : FS) (q : Loc) :
    (PrunedFrom (cutoffOf env days) fs env.cwd path q →
      find (cleanup.cleanPath env path days fs).1 q = none) ∧
    (¬ PrunedFrom (cutoffOf env days) fs env.cwd path q →
      find (cleanup.cleanPath env path days fs).1 q = find fs q) := by
  obtain ⟨L, hR, hL⟩ := cleanPath_spec env path days fs
  have := hR.2.1 q
  constructor
  · intro h
    rw [this, if_pos ((hL q).2 h)]
  · intro h
    rw [this, if_neg (fun hm => h ((hL q).1 hm))]

theorem mem_removedEntries {fs fs2 : FS} {q : Loc} :
    q ∈ removedEntries fs fs2 ↔ (∃ e, find fs q = some e) ∧ find fs2 q = none := by
  unfold removedEntries
  rw [List.mem_filter, List.mem_dedup, List.mem_map]
  constructor
  · rintro ⟨⟨⟨k, e⟩, hm, rfl⟩, h2⟩
    refine ⟨find_isSome_of_mem hm, ?_⟩
    cases hf : find fs2 k with
    | none => rfl
    | some e2 => simp [hf] at h2
  · rintro ⟨⟨e, he⟩, h2⟩
    exact ⟨⟨(q, e), find_some_mem he, rfl⟩, by simp [h2]⟩

theorem removedEntries_nodup (fs fs2 : FS) : (removedEntries fs fs2).Nodup :=
  List.Nodup.filter _ (List.nodup_dedup _)

theorem cleanPath_perm (env : Env) (path : Str) (days : Int) (fs : FS) :
    ∃ L, Removes (fs, (0, 0)) (cleanup.cleanPath env path days fs) L ∧
      L.Perm (removedEntries fs (cleanup.cleanPath env path days fs).1) := by
  obtain ⟨L, hR, hL⟩ := cleanPath_spec env path days fs
  refine ⟨L, hR, ?_⟩
  rw [List.perm_ext_iff_of_nodup hR.1 (removedEntries_nodup _ _)]
  intro q
  rw [mem_removedEntries, hR.2.1 q]
  constructor
  · intro hq
    obtain ⟨_, _, e, _, _, hf, _⟩ := (hL q).1 hq
    exact ⟨⟨e, hf⟩, by rw [if_pos hq]⟩
  · rintro ⟨⟨e, he⟩, h2⟩
    by_contra hq
    rw [if_neg hq, he] at h2
    cases h2

theorem PrunedFrom_iff (env : Env) (path : Str) (days : Int) {fs : FS} {q : Loc} {e : Entry}
    (h : find fs q = some e) :
    PrunedFrom (cutoffOf env days) fs env.cwd path q ↔
      e.info.IsDir = false ∧ Before e.info.ModTime (cutoffOf env days) = true ∧
        VisitedFrom fs env.cwd path q ∧ e.removeErr = false := by
  constructor
  · rintro ⟨hp, rest, e2, hq, hr, hf, hs, hd, ht, hrm⟩
    rw [h] at hf
    cases hf
    exact ⟨hd, ht, ⟨hp, rest, e, hq, hr, h, hs⟩, hrm⟩
  · rintro ⟨hd, ht, ⟨hp, rest, e2, hq, hr, hf, hs⟩, hrm⟩
    rw [h] at hf
    cases hf
    exact ⟨hp, rest, e, hq, hr, h, hs, hd, ht, hrm⟩

/-! ## Time -/

theorem utcAddDate_neg (t : Time) (days : Int) :
    utcAddDate t (wrap64 (-days)) = { sec := wrap64 (t.sec - days * 86400), nsec := t.nsec } := by
  unfold utcAddDate
  congr 1
  unfold wrap64
  omega

theorem Before_iff_Earlier {t u : Time} (ht : Representable t) (hu : Representable u) :
    Before t u = true ↔ Earlier t u := by
  obtain ⟨_, ht1, ht2⟩ := ht
  obtain ⟨_, hu1, hu2⟩ := hu
  unfold Before Earlier
  rw [wrap64_of_range ht1 ht2, wrap64_of_range hu1 hu2]
  simp only [Bool.or_eq_true, Bool.and_eq_true, decide_eq_true_eq]
  constructor
  · rintro (h | ⟨h1, h2⟩)
    · exact Or.inl (by omega)
    · exact Or.inr ⟨by omega, h2⟩
  · rintro (h | ⟨h1, h2⟩)
    · exact Or.inl (by omega)
    · exact Or.inr ⟨by omega, h2⟩

/-! ## The claims on `cleanPath` -/

/-- C1, as stated, fails at the day count `2^62` on the sample machine: the
cutoff wraps around to `now`, so `cleanPath("/home/u/.claude/debug", 2^62)`
removes the debug log of 1 day, whose modification time is not before `now`
minus `2^62` days, and returns `(2, 150)`. -/
theorem cleanPath_huge_day_count_removes_new_file :
    find sampleFS (loc "/home/u/.claude/debug/new.log") = some (sampleFile (99 * 86400) 50) ∧
    ¬ ((99 * 86400 : Int) < sampleEnv.now - 4611686018427387904 * 86400) ∧
    find (cleanup.cleanPath sampleEnv "/home/u/.claude/debug".toList 4611686018427387904
      sampleFS).1 (loc "/home/u/.claude/debug/new.log") = none ∧
    (cleanup.cleanPath sampleEnv "/home/u/.claude/debug".toList 4611686018427387904
      sampleFS).2 = (2, 150) := by
  decide

/-- C1, amended: after `cleanPath(path, N)` an entry `q` of the tree has been
removed if and only if it is a non-directory whose modification time is, by
`Time.Before`, strictly before the cutoff `time.Now().AddDate(0, 0, -N)` and
whose removal succeeded, that is, the walk from `path` reached it with its
file information and `os.Remove` did not fail on it; every directory is still
present, as a directory, and every non-directory whose modification time is
not before that cutoff is still present, unchanged.  In a zone without offset
changes the cutoff is
`now` minus `N * 86400` seconds whenever those seconds are an `int64` value,
and between times that Go represents without wrap-around `Time.Before` is the
order by seconds and nanoseconds. -/
theorem cleanPath_removes_exactly (env : Env) (path : Str) (days : Int) (fs : FS) (q : Loc)
    (e : Entry) (h : find fs q = some e) :
    (find (cleanup.cleanPath env path days fs).1 q = none ↔
      e.info.IsDir = false ∧ Before e.info.ModTime (cutoffOf env days) = true ∧
        VisitedFrom fs env.cwd path q ∧ e.removeErr = false) ∧
    (e.info.IsDir = true →
      ∃ e2, find (cleanup.cleanPath env path days fs).1 q = some e2 ∧ e2.info.IsDir = true) ∧
    (e.info.IsDir = false → Before e.info.ModTime (cutoffOf env days) = false →
      find (cleanup.cleanPath env path days fs).1 q = some e) ∧
    (env.addDate = utcAddDate → InInt64 (env.now - days * 86400) →
      cutoffOf env days = { sec := env.now - days * 86400, nsec := env.nowNsec }) ∧
    (Representable e.info.ModTime → Representable (cutoffOf env days) →
      (Before e.info.ModTime (cutoffOf env days) = true ↔
        Earlier e.info.ModTime (cutoffOf env days))) := by
  have hiff := PrunedFrom_iff env path days h
  obtain ⟨h1, h2⟩ := cleanPath_find env path days fs q
  have htime : env.addDate = utcAddDate → InInt64 (env.now - days * 86400) →
      cutoffOf env days = { sec := env.now - days * 86400, nsec := env.nowNsec } := by
    intro hutc hr
    unfold cutoffOf
    rw [hutc, utcAddDate_neg]
    show ({ sec := wrap64 (env.now - days * 86400), nsec := env.nowNsec } : Time) = _
    rw [wrap64_of_range hr.1 hr.2]
  by_cases hp : PrunedFrom (cutoffOf env days) fs env.cwd path q
  · have hn := h1 hp
    have hc := hiff.1 hp
    refine ⟨by simp [hn, hc], ?_, ?_, htime, Before_iff_Earlier⟩
    · intro hd
      rw [hc.1] at hd; cases hd
    · intro _ ht
      rw [hc.2.1] at ht; cases ht
  · have hn := h2 hp
    rw [h] at hn
    refine ⟨?_, fun hd => ⟨e, hn, hd⟩, fun _ _ => hn, htime, Before_iff_Earlier⟩
    constructor
    · intro h0; rw [hn] at h0; cases h0
    · intro hc; exact absurd (hiff.2 hc) hp

/-- C1, on the sample machine: the debug log of 8 days is removed by
`cleanPath("/home/u/.claude/debug", 7)`. -/
theorem cleanPath_removes_exactly_witness :
    find sampleFS (loc "/home/u/.claude/debug/old.log") = some (sampleFile (92 * 86400) 100) ∧
    find (cleanup.cleanPath sampleEnv "/home/u/.claude/debug".toList 7 sampleFS).1
      (loc "/home/u/.claude/debug/old.log") = none :=
  ⟨by decide,
    (cleanPath_removes_exactly sampleEnv "/home/u/.claude/debug".toList 7 sampleFS
      (loc "/home/u/.claude/debug/old.log") (sampleFile (92 * 86400) 100) (by decide)).1.2
      ⟨by decide, by decide,
        ⟨by decide, ["old.log".toList], sampleFile (92 * 86400) 100, by decide, by decide,
          by decide, by decide⟩,
        by decide⟩⟩

/-- C2, as stated, fails on a directory with two files of `2^62` bytes:
`cleanPath` removes both and returns `(2, -2^63)`, while the sum of their
sizes is `2^63`. -/
theorem cleanPath_freed_wraps :
    (cleanup.cleanPath sampleEnv "/big".toList 7 hugeFS).2 = (2, -9223372036854775808) ∧
    removedEntries hugeFS (cleanup.cleanPath sampleEnv "/big".toList 7 hugeFS).1 =
      [loc "/big/a", loc "/big/b"] ∧
    ((removedEntries hugeFS (cleanup.cleanPath sampleEnv "/big".toList 7 hugeFS).1).map
      (sizeAt hugeFS)).sum = 9223372036854775808 := by
  decide

/-- C2, amended: the pair returned by `cleanPath` is the number of entries it
removed and the sum, in `int64` arithmetic with wrap-around, of the sizes of
exactly those entries, which is their sum whenever that is an `int64` value;
an entry on which `lstat` or the removal fails is not among them, and every
non-directory older than the cutoff that the walk reaches and can remove is
among them, whatever failed on other entries. -/
theorem cleanPath_tallies (env : Env) (path : Str) (days : Int) (fs : FS) :
    (cleanup.cleanPath env path days fs).2.1 =
      ((removedEntries fs (cleanup.cleanPath env path days fs).1).length : Int) ∧
    (cleanup.cleanPath env path days fs).2.2 =
      wrap64 ((removedEntries fs (cleanup.cleanPath env path days fs).1).map (sizeAt fs)).sum ∧
    (-9223372036854775808 ≤
        ((removedEntries fs (cleanup.cleanPath env path days fs).1).map (sizeAt fs)).sum ∧
      ((removedEntries fs (cleanup.cleanPath env path days fs).1).map (sizeAt fs)).sum <
        9223372036854775808 →
      (cleanup.cleanPath env path days fs).2.2 =
        ((removedEntries fs (cleanup.cleanPath env path days fs).1).map (sizeAt fs)).sum) ∧
    (∀ q e, find fs q = some e → e.statErr = true ∨ e.removeErr = true →
      q ∉ removedEntries fs (cleanup.cleanPath env path days fs).1) ∧
    (∀ q e, find fs q = some e → e.info.IsDir = false →
      Before e.info.ModTime (cutoffOf env days) = true → VisitedFrom fs env.cwd path q →
      e.removeErr = false → q ∈ removedEntries fs (cleanup.cleanPath env path days fs).1) := by
  obtain ⟨L, hR, hperm⟩ := cleanPath_perm env path days fs
  obtain ⟨_, _, hd, ht⟩ := hR
  have hsum : (L.map (sizeAt fs)).sum =
      ((removedEntries fs (cleanup.cleanPath env path days fs).1).map (sizeAt fs)).sum :=
    (hperm.map _).sum_eq
  have hfreed : (cleanup.cleanPath env path days fs).2.2 =
      wrap64 ((removedEntries fs (cleanup.cleanPath env path days fs).1).map (sizeAt fs)).sum := by
    have h0 : wrap64 (0 : Int) = 0 := by unfold wrap64; omega
    have := ht h0
    simp only [zero_add] at this
    rw [this, hsum]
  refine ⟨?_, hfreed, ?_, ?_, ?_⟩
  · rw [hd, hperm.length_eq]; simp
  · rintro ⟨h1, h2⟩
    rw [hfreed, wrap64_of_range h1 h2]
  · intro q e hf herr hmem
    have hnone := (mem_removedEntries.1 hmem).2
    have hfind := cleanPath_find env path days fs q
    by_cases hp : PrunedFrom (cutoffOf env days) fs env.cwd path q
    · obtain ⟨_, _, hv, hrm⟩ := (PrunedFrom_iff env path days hf).1 hp
      obtain ⟨_, _, e2, _, _, hf2, hs⟩ := hv
      rw [hf] at hf2
      cases hf2
      rcases herr with h | h
      · rw [hs] at h; cases h
      · rw [hrm] at h; cases h
    · rw [hfind.2 hp, hf] at hnone
      cases hnone
  · intro q e hf hdir hold hv hrm
    have hp : PrunedFrom (cutoffOf env days) fs env.cwd path q :=
      (PrunedFrom_iff env path days hf).2 ⟨hdir, hold, hv, hrm⟩
    exact mem_removedEntries.2 ⟨⟨e, hf⟩, (cleanPath_find env path days fs q).1 hp⟩

/-! ## Path expansion -/

/-- C3, at the path `~/$VAR/x` with home `/home/u` and `VAR=data`: each of the
three path-expansion functions returns `/home/u/$VAR/x`, the variable
reference still in it, although `os.ExpandEnv` resolves `$VAR/x` to
`data/x`. -/
theorem expandPath_tilde_keeps_variable :
    cleanup.expandPath sampleEnv "~/$VAR/x".toList sampleEnv.home = "/home/u/$VAR/x".toList ∧
    discovery.expandPath sampleEnv "~/$VAR/x".toList sampleEnv.home = "/home/u/$VAR/x".toList ∧
    utils.ExpandPath sampleEnv "~/$VAR/x".toList = "/home/u/$VAR/x".toList ∧
    ExpandEnv sampleEnv.getenv "$VAR/x".toList = "data/x".toList := by
  decide

/-! ## Scan -/

/-- C4: `Scan` is read-only: the filesystem state after `Scanner.Scan` is the
state before it, and so it is after `discoverTool` and after
`CalculateDiskUsage`. -/
theorem Scan_read_only (cfg : config.Config) (env : Env) (fs : FS) :
    (discovery.Scan cfg env fs).1 = fs ∧
    (∀ key tool, (discovery.discoverTool env key tool fs).1 = fs) ∧
    (∀ path, (models.CalculateDiskUsage env path fs).1 = fs) := by
  refine ⟨?_, fun key tool => discoverTool_fst env key tool fs,
    fun path => CalculateDiskUsage_fst env path fs⟩
  unfold discovery.Scan
  exact scanLoop_fst env cfg.Tools _

/-! ## The frame of a cleanup -/

theorem Frame_refl (P : Loc → Prop) (fs : FS) : Frame P fs fs := fun _ => Or.inl rfl

theorem Frame_trans {P : Loc → Prop} {fs fs2 fs3 : FS} (h1 : Frame P fs fs2)
    (h2 : Frame P fs2 fs3) : Frame P fs fs3 := by
  intro q
  rcases h2 q with h | ⟨hn, hp, e, he, hd⟩
  · rcases h1 q with h0 | h0
    · exact Or.inl (h.trans h0)
    · exact Or.inr ⟨h.trans h0.1, h0.2⟩
  · rcases h1 q with h0 | h0
    · exact Or.inr ⟨hn, hp, e, h0 ▸ he, hd⟩
    · rw [h0.1] at he; cases he

theorem Frame_mono {P Q : Loc → Prop} {fs fs2 : FS} (hPQ : ∀ q, P q → Q q)
    (h : Frame P fs fs2) : Frame Q fs fs2 := by
  intro q
  rcases h q with h0 | ⟨hn, hp, he⟩
  · exact Or.inl h0
  · exact Or.inr ⟨hn, hPQ q hp, he⟩

theorem cleanPath_frame (env : Env) (path : Str) (days : Int) (fs : FS) :
    Frame (fun q => resolve env.cwd path <+: q) fs (cleanup.cleanPath env path days fs).1 := by
  intro q
  obtain ⟨h1, h2⟩ := cleanPath_find env path days fs q
  by_cases hp : PrunedFrom (cutoffOf env days) fs env.cwd path q
  · obtain ⟨_, rest, e, hq, hr, hf, hs, hd, _⟩ := id hp
    exact Or.inr ⟨h1 hp, Pruned_under hp.2, e, hf, hd⟩
  · exact Or.inl (h2 hp)

theorem cleanupToolStep_frame (cfg : config.Config) (env : Env) (basePath : Str)
    (w : FS × models.CleanupResult) (t : Str) :
    Frame (fun q => resolve env.cwd (Join [basePath, t]) <+: q) w.1
      (cleanup.cleanupToolStep cfg env basePath w t).1 := by
  unfold cleanup.cleanupToolStep
  simp only
  split
  · exact Frame_refl _ _
  · exact cleanPath_frame env _ _ w.1

theorem cleanupTool_fold_frame (cfg : config.Config) (env : Env) (basePath : Str)
    (P : Loc → Prop) :
    ∀ (ts : List Str), (∀ t, t ∈ ts → ∀ q, resolve env.cwd (Join [basePath, t]) <+: q → P q) →
      ∀ (w : FS × models.CleanupResult),
        Frame P w.1 (ts.foldl (cleanup.cleanupToolStep cfg env basePath) w).1 := by
  intro ts
  induction ts with
  | nil => intro _ w; exact Frame_refl _ _
  | cons t rest ih =>
    intro hP w
    simp only [List.foldl]
    refine Frame_trans (Frame_mono (hP t (List.mem_cons_self _ _))
      (cleanupToolStep_frame cfg env basePath w t)) ?_
    exact ih (fun t2 ht2 => hP t2 (List.mem_cons_of_mem _ ht2)) _

theorem CleanupTool_keeps_frame (cfg : config.Config) (env : Env) (key : Str) (tool : config.Tool)
    (fs : FS) : Frame (UnderTemp env tool) fs (cleanup.CleanupTool cfg env key tool fs).1 := by
  unfold cleanup.CleanupTool
  exact cleanupTool_fold_frame cfg env _ _ tool.TempPaths (fun t ht q hq => ⟨t, ht, hq⟩) _

/-- C5: every entry removed by `CleanupTool` is a non-directory that lies
beneath the join of the tool's expanded base path with one of its temp-file
relative paths; every entry that is not beneath one of them, and every
directory, is unchanged. -/
theorem CleanupTool_frame (cfg : config.Config) (env : Env) (key : Str) (tool : config.Tool)
    (fs : FS) (q : Loc) :
    (find (cleanup.CleanupTool cfg env key tool fs).1 q ≠ find fs q →
      find (cleanup.CleanupTool cfg env key tool fs).1 q = none ∧ UnderTemp env tool q) ∧
    (¬ UnderTemp env tool q → find (cleanup.CleanupTool cfg env key tool fs).1 q = find fs q) ∧
    (∀ e, find fs q = some e → e.info.IsDir = true →
      find (cleanup.CleanupTool cfg env key tool fs).1 q = some e) := by
  have hF := CleanupTool_keeps_frame cfg env key tool fs q
  refine ⟨fun hne => ?_, fun hnu => ?_, fun e he hd => ?_⟩
  · rcases hF with h | ⟨hn, hu, _⟩
    · exact absurd h hne
    · exact ⟨hn, hu⟩
  · rcases hF with h | ⟨_, hu, _⟩
    · exact h
    · exact absurd hu hnu
  · rcases hF with h | ⟨_, _, e2, he2, hd2⟩
    · rw [h, he]
    · rw [he] at he2; cases he2; rw [hd] at hd2; cases hd2

/-! ## Retention thresholds -/

/-- C6, at a configuration loaded with `temp_files_days: 30` and the command
run without `--days`: whatever was loaded, the threshold handed to the cleaner
is the flag's default 7; on the sample machine the debug log of 8 days is
removed. -/
theorem cleanup_without_days_uses_seven :
    (∀ loaded, (cli.cleanupConfig loaded none).Retention.TempFiles = 7) ∧
    thirtyDayConfig.Retention.TempFiles = 30 ∧
    find sampleFS (loc "/home/u/.claude/debug/old.log") = some (sampleFile (92 * 86400) 100) ∧
    find (cli.runCleanup thirtyDayConfig none sampleEnv sampleFS).1
      (loc "/home/u/.claude/debug/old.log") = none :=
  ⟨fun _ => rfl, by decide, by decide, by decide⟩

/-- C7, at the sample machine with the default configuration: `CleanupAll`
removes the shell snapshot of 10 days, which is not older than 30 days, while
`CleanupClaude`, with the shell-snapshot threshold, keeps it. -/
theorem CleanupAll_prunes_snapshots_at_temp_threshold :
    find sampleFS (loc "/home/u/.claude/shell-snapshots/snap.sh") =
      some (sampleFile (90 * 86400) 200) ∧
    ¬ ((90 * 86400 : Int) < sampleEnv.now - config.defaultConfig.Retention.ShellSnapshots * 86400) ∧
    find (cleanup.CleanupAll config.defaultConfig sampleEnv sampleFS).1
      (loc "/home/u/.claude/shell-snapshots/snap.sh") = none ∧
    find (cleanup.CleanupClaude config.defaultConfig sampleEnv sampleFS).1
      (loc "/home/u/.claude/shell-snapshots/snap.sh") = some (sampleFile (90 * 86400) 200) := by
  decide

/-! ## Discovery -/

/-- C8, at the Claude entry of the default tool table on the sample machine,
run in `/work`: the settings file exists beneath the base path and the status
is `warning`; with the settings file in the working directory instead, the
status is `ok`. -/
theorem discoverTool_looks_in_working_directory :
    ("claude".toList, claudeTool) ∈ config.defaultConfig.Tools ∧
    (find sampleFS (loc "/home/u/.claude/settings.json")).isSome = true ∧
    (discovery.discoverTool sampleEnv "claude".toList claudeTool sampleFS).2.Found = true ∧
    (discovery.discoverTool sampleEnv "claude".toList claudeTool sampleFS).2.Status =
      models.StatusWarning ∧
    find movedSettingsFS (loc "/home/u/.claude/settings.json") = none ∧
    (discovery.discoverTool sampleEnv "claude".toList claudeTool movedSettingsFS).2.Status =
      models.StatusOK := by
  decide

/-! ## Rendering -/

/-- C9, at a result with 12 files deleted: `FormatResult` renders
`2 files deleted`, the last digit only, while the decimal representation of
the count is `12`. -/
theorem FormatResult_renders_last_digit :
    (∀ fmtF, cleanup.FormatResult fmtF { Tool := "T".toList, FilesDeleted := 12 } =
      some "[Done] T: 0 B freed, 2 files deleted".toList) ∧
    fmtInt 12 = "12".toList :=
  ⟨fun _ => rfl, by decide⟩

/-! ## One result per enabled tool -/

theorem cleanupTool_fold_Tool (cfg : config.Config) (env : Env) (basePath : Str) :
    ∀ (ts : List Str) (w : FS × models.CleanupResult),
      (ts.foldl (cleanup.cleanupToolStep cfg env basePath) w).2.Tool = w.2.Tool := by
  intro ts
  induction ts with
  | nil => intro w; rfl
  | cons t rest ih =>
    intro w
    simp only [List.foldl]
    rw [ih]
    unfold cleanup.cleanupToolStep
    simp only
    split <;> rfl

theorem CleanupTool_Tool (cfg : config.Config) (env : Env) (key : Str) (tool : config.Tool)
    (fs : FS) : (cleanup.CleanupTool cfg env key tool fs).2.Tool = tool.Name := by
  unfold cleanup.CleanupTool
  exact cleanupTool_fold_Tool cfg env _ _ _

theorem cleanupAllLoop_names (cfg : config.Config) (env : Env) :
    ∀ (tools : List (Str × config.Tool)) (w : FS × List models.CleanupResult),
      (cleanup.cleanupAllLoop cfg env tools w).2.map (fun r => r.Tool) =
        w.2.map (fun r => r.Tool) ++
          (tools.filter (fun kt => kt.2.Enabled)).map (fun kt => kt.2.Name) := by
  intro tools
  induction tools with
  | nil => intro w; simp [cleanup.cleanupAllLoop]
  | cons kt rest ih =>
    intro w
    obtain ⟨key, tool⟩ := kt
    unfold cleanup.cleanupAllLoop
    cases he : tool.Enabled with
    | false => simp [ih, he]
    | true => simp [ih, he, CleanupTool_Tool]

theorem cleanupAllLoop_frame (cfg : config.Config) (env : Env) (P : Loc → Prop) :
    ∀ (tools : List (Str × config.Tool)),
      (∀ kt, kt ∈ tools → kt.2.Enabled = true → ∀ q, UnderTemp env kt.2 q → P q) →
      ∀ (w : FS × List models.CleanupResult),
        Frame P w.1 (cleanup.cleanupAllLoop cfg env tools w).1 := by
  intro tools
  induction tools with
  | nil => intro _ w; exact Frame_refl _ _
  | cons kt rest ih =>
    intro hP w
    obtain ⟨key, tool⟩ := kt
    have hrest := ih (fun kt2 h2 => hP kt2 (List.mem_cons_of_mem _ h2))
    unfold cleanup.cleanupAllLoop
    cases he : tool.Enabled with
    | false => simpa [he] using hrest w
    | true =>
      simp only [he, Bool.not_true, Bool.false_eq_true, if_false]
      exact Frame_trans
        (Frame_mono (hP (key, tool) (List.mem_cons_self _ _) he)
          (CleanupTool_keeps_frame cfg env key tool w.1))
        (hrest _)

theorem discoverTool_Name (env : Env) (key : Str) (tool : config.Tool) (fs : FS) :
    (discovery.discoverTool env key tool fs).2.Name = tool.Name := by
  unfold discovery.discoverTool
  simp only
  split
  · rfl
  · split <;> split <;> rfl

theorem scanLoop_names (env : Env) :
    ∀ (tools : List (Str × config.Tool)) (w : FS × models.ScanResult),
      (discovery.scanLoop env tools w).2.Tools.map (fun t => t.Name) =
          w.2.Tools.map (fun t => t.Name) ++
            (tools.filter (fun kt => kt.2.Enabled)).map (fun kt => kt.2.Name) ∧
        (discovery.scanLoop env tools w).2.Enabled =
          w.2.Enabled + ((tools.filter (fun kt => kt.2.Enabled)).length : Int) := by
  intro tools
  induction tools with
  | nil => intro w; simp [discovery.scanLoop]
  | cons kt rest ih =>
    intro w
    obtain ⟨key, tool⟩ := kt
    unfold discovery.scanLoop
    cases he : tool.Enabled with
    | false => simpa [he] using ih w
    | true =>
      simp only [he, Bool.not_true, Bool.false_eq_true, if_false]
      obtain ⟨h1, h2⟩ := ih
        ((discovery.discoverTool env key tool w.1).1,
          { w.2 with
            Tools := w.2.Tools ++ [(discovery.discoverTool env key tool w.1).2]
            Enabled := w.2.Enabled + 1 })
      rw [h1, h2]
      constructor
      · simp [he, discoverTool_Name]
      · simp only [List.filter_cons, he, if_true, List.length_cons]; push_cast; ring

/-- C10, as stated, fails on the sample machine with a tool table in which the
disabled legacy tool has the base path and the temp paths of the enabled
Claude Code: `CleanupAll` removes the debug log of 8 days, which lies beneath
a temp path of the disabled tool. -/
theorem CleanupAll_removes_beneath_shared_temp_path :
    ("legacy".toList, legacyTool) ∈ sharedConfig.Tools ∧
    legacyTool.Enabled = false ∧
    "debug".toList ∈ legacyTool.TempPaths ∧
    resolve sampleEnv.cwd
        (Join [cleanup.expandPath sampleEnv legacyTool.Path sampleEnv.home, "debug".toList]) <+:
      loc "/home/u/.claude/debug/old.log" ∧
    find sampleFS (loc "/home/u/.claude/debug/old.log") = some (sampleFile (92 * 86400) 100) ∧
    find (cleanup.CleanupAll sharedConfig sampleEnv sampleFS).1
      (loc "/home/u/.claude/debug/old.log") = none := by
  refine ⟨by decide, by decide, by decide, ⟨["old.log".toList], by decide⟩, by decide,
    by decide⟩

/-- C10, amended: `Scan` and `CleanupAll` each return one entry per enabled tool
of the tool table, in the order of the table, and none for a disabled tool:
the names of the returned entries are the names of the enabled tools, the
length of each list and `Scan`'s `Enabled` count are the number of enabled
tools, and the error is `nil`; `CleanupAll` runs no cleanup for a disabled
tool, so every entry that it removes lies beneath a temp path of an enabled
tool, which a disabled tool may share. -/
theorem Scan_CleanupAll_per_enabled_tool (cfg : config.Config) (env : Env) (fs : FS) :
    (discovery.Scan cfg env fs).2.1.Tools.map (fun t => t.Name) =
      (cfg.Tools.filter (fun kt => kt.2.Enabled)).map (fun kt => kt.2.Name) ∧
    (discovery.Scan cfg env fs).2.1.Tools.length =
      (cfg.Tools.filter (fun kt => kt.2.Enabled)).length ∧
    (discovery.Scan cfg env fs).2.1.Enabled =
      ((cfg.Tools.filter (fun kt => kt.2.Enabled)).length : Int) ∧
    (discovery.Scan cfg env fs).2.2 = none ∧
    (cleanup.CleanupAll cfg env fs).2.1.map (fun r => r.Tool) =
      (cfg.Tools.filter (fun kt => kt.2.Enabled)).map (fun kt => kt.2.Name) ∧
    (cleanup.CleanupAll cfg env fs).2.1.length =
      (cfg.Tools.filter (fun kt => kt.2.Enabled)).length ∧
    (cleanup.CleanupAll cfg env fs).2.2 = none ∧
    (∀ q, find (cleanup.CleanupAll cfg env fs).1 q ≠ find fs q →
      find (cleanup.CleanupAll cfg env fs).1 q = none ∧
        ∃ kt, kt ∈ cfg.Tools ∧ kt.2.Enabled = true ∧ UnderTemp env kt.2 q) := by
  have hs := scanLoop_names env cfg.Tools (fs, { Tools := [], Timestamp := env.now })
  have hsn : (discovery.Scan cfg env fs).2.1.Tools.map (fun t => t.Name) =
      (cfg.Tools.filter (fun kt => kt.2.Enabled)).map (fun kt => kt.2.Name) := by
    have := hs.1
    simpa [discovery.Scan] using this
  have hc := cleanupAllLoop_names cfg env cfg.Tools (fs, [])
  have hcn : (cleanup.CleanupAll cfg env fs).2.1.map (fun r => r.Tool) =
      (cfg.Tools.filter (fun kt => kt.2.Enabled)).map (fun kt => kt.2.Name) := by
    simpa [cleanup.CleanupAll] using hc
  refine ⟨hsn, ?_, ?_, rfl, hcn, ?_, rfl, fun q hne => ?_⟩
  · have := congrArg List.length hsn
    simpa using this
  · have := hs.2
    simpa [discovery.Scan] using this
  · have := congrArg List.length hcn
    simpa using this
  · have hF := cleanupAllLoop_frame cfg env
      (fun q => ∃ kt, kt ∈ cfg.Tools ∧ kt.2.Enabled = true ∧ UnderTemp env kt.2 q)
      cfg.Tools (fun kt hkt he q hq => ⟨kt, hkt, he, hq⟩) (fs, [])
    rcases hF q with h | ⟨hn, hP, _⟩
    · exact absurd h hne
    · exact ⟨hn, hP⟩

/-! ## The total of a scan -/

/-- C11, at the default configuration on the sample machine: `Scan` returns
`Total = 3`, the number of tools in the returned list, while one tool of the
list, Claude Code, has `Found` true; for every configuration `Total` is the
length of the list. -/
theorem Scan_total_is_list_length :
    (∀ cfg env fs, (discovery.Scan cfg env fs).2.1.Total =
      ((discovery.Scan cfg env fs).2.1.Tools.length : Int)) ∧
    (discovery.Scan config.defaultConfig sampleEnv sampleFS).2.1.Total = 3 ∧
    ((discovery.Scan config.defaultConfig sampleEnv sampleFS).2.1.Tools.filter
      (fun t => t.Found)).length = 1 :=
  ⟨fun _ _ _ => rfl, by decide, by decide⟩

/-! ## The sums of `CleanupTool` -/

theorem wrap64_idem (a : Int) : wrap64 (wrap64 a) = wrap64 a := by
  unfold wrap64; omega

theorem lastCounted_none :
    ∀ (runs : List TempRun), (runs.filter (fun x => x.counted)).isEmpty = true →
      lastCounted runs = [] := by
  intro runs
  induction runs with
  | nil => intro _; rfl
  | cons run rest ih =>
    intro h
    cases hex : run.counted with
    | true => simp [List.filter, hex] at h
    | false =>
      have hrest : (rest.filter (fun x => x.counted)).isEmpty = true := by
        simpa [List.filter, hex] using h
      simp [lastCounted, hrest, hex]

theorem cleanupTool_fold_sums (cfg : config.Config) (env : Env) (basePath : Str) :
    ∀ (ts : List Str) (w : FS × models.CleanupResult),
      wrap64 w.2.SpaceFreed = w.2.SpaceFreed →
      (ts.foldl (cleanup.cleanupToolStep cfg env basePath) w).2.FilesDeleted =
          w.2.FilesDeleted +
            (((tempPathRuns cfg env basePath ts w.1).filter (fun x => x.counted)).map
              (fun x => x.deleted)).sum ∧
        (ts.foldl (cleanup.cleanupToolStep cfg env basePath) w).2.SpaceFreed =
          wrap64 (w.2.SpaceFreed +
            (((tempPathRuns cfg env basePath ts w.1).filter (fun x => x.counted)).map
              (fun x => x.freed)).sum) ∧
        (ts.foldl (cleanup.cleanupToolStep cfg env basePath) w).2.Path =
          if ((tempPathRuns cfg env basePath ts w.1).filter (fun x => x.counted)).isEmpty
          then w.2.Path else lastCounted (tempPathRuns cfg env basePath ts w.1) := by
  intro ts
  induction ts with
  | nil =>
    intro w hw
    simp [tempPathRuns, hw]
  | cons t rest ih =>
    intro w hw
    simp only [List.foldl]
    cases hst : IsNotExist (env.stat w.1 (Join [basePath, t])) with
    | true =>
      have hstep : cleanup.cleanupToolStep cfg env basePath w t = w := by
        simp [cleanup.cleanupToolStep, hst]
      rw [hstep]
      obtain ⟨h1, h2, h3⟩ := ih w hw
      simp only [tempPathRuns, hst, Bool.not_true, Bool.false_eq_true, if_false]
      refine ⟨by simpa [List.filter] using h1, by simpa [List.filter] using h2, ?_⟩
      rw [h3]
      by_cases hemp :
          ((tempPathRuns cfg env basePath rest w.1).filter (fun x => x.counted)).isEmpty = true
      · simp [List.filter, hemp]
      · simp [List.filter, hemp, lastCounted]
    | false =>
      have hstep : cleanup.cleanupToolStep cfg env basePath w t =
          ((cleanup.cleanPath env (Join [basePath, t]) cfg.Retention.TempFiles w.1).1,
            { w.2 with
              FilesDeleted := w.2.FilesDeleted +
                (cleanup.cleanPath env (Join [basePath, t]) cfg.Retention.TempFiles w.1).2.1
              SpaceFreed := wrap64 (w.2.SpaceFreed +
                (cleanup.cleanPath env (Join [basePath, t]) cfg.Retention.TempFiles w.1).2.2)
              Path := Join [basePath, t] }) := by
        simp [cleanup.cleanupToolStep, hst]
      rw [hstep]
      obtain ⟨h1, h2, h3⟩ := ih
        ((cleanup.cleanPath env (Join [basePath, t]) cfg.Retention.TempFiles w.1).1,
          { w.2 with
            FilesDeleted := w.2.FilesDeleted +
              (cleanup.cleanPath env (Join [basePath, t]) cfg.Retention.TempFiles w.1).2.1
            SpaceFreed := wrap64 (w.2.SpaceFreed +
              (cleanup.cleanPath env (Join [basePath, t]) cfg.Retention.TempFiles w.1).2.2)
            Path := Join [basePath, t] })
        (wrap64_idem _)
      simp only [tempPathRuns, hst, Bool.not_false, if_true]
      refine ⟨?_, ?_, ?_⟩
      · rw [h1]; simp [List.filter, add_assoc]
      · rw [h2, wrap64_wrap64_add]; simp [List.filter, add_assoc]
      · rw [h3]
        by_cases hemp : ((tempPathRuns cfg env basePath rest
            (cleanup.cleanPath env (Join [basePath, t]) cfg.Retention.TempFiles w.1).1).filter
              (fun x => x.counted)).isEmpty = true
        · simp [List.filter, hemp, lastCounted]
        · simp [List.filter, hemp, lastCounted]

theorem CleanupTool_example :
    (cleanup.CleanupTool config.defaultConfig sampleEnv "claude".toList claudeTool sampleFS).2 =
      { Tool := "Claude Code".toList, Path := "/home/u/.claude/shell-snapshots".toList,
        FilesDeleted := 2, SpaceFreed := 300 } ∧
    (toolRuns config.defaultConfig sampleEnv claudeTool sampleFS).map
        (fun x => (x.counted, x.deleted, x.freed)) = [(true, 1, 100), (true, 1, 200)] := by
  decide

theorem unclean_path_examples :
    plainStat (loc "/work") sampleFS "/home/u/.claude/settings.json/".toList =
      some Errno.ENOTDIR ∧
    plainStat (loc "/work") sampleFS "/home/u/missing/../.claude".toList =
      some Errno.ENOENT ∧
    plainStat (loc "/work") sampleFS "../home/u/.claude/debug/./old.log".toList = none ∧
    resolve (loc "/work") "../home/u/.claude/debug/./old.log".toList =
      loc "/home/u/.claude/debug/old.log" ∧
    plainStat (loc "/work") sampleFS "/..//home/".toList = none ∧
    plainStat (loc "/work") sampleFS "/".toList = none ∧
    (cleanup.cleanPath sampleEnv "".toList 7 sampleFS) = (sampleFS, (0, 0)) ∧
    (cleanup.cleanPath sampleEnv "/home/u/.claude/settings.json/".toList 7 sampleFS) =
      (sampleFS, (0, 0)) := by
  decide

theorem plainStat_examples :
    plainStat (loc "/work") sampleFS "/home/u/.claude/settings.json/cache".toList =
      some Errno.ENOTDIR ∧
    plainStat (loc "/work") sampleFS "/home/u/.gemini".toList = some Errno.ENOENT ∧
    plainStat (loc "/work") sampleFS "".toList = some Errno.ENOENT ∧
    plainStat (loc "/work") sampleFS "settings.json".toList = some Errno.ENOENT ∧
    plainStat (loc "/work") sampleFS "/home/u/.claude".toList = none := by
  decide

/-- C12, as stated, fails twice.  With one temp path `settings.json/cache`
beneath the settings file, no temp path exists, yet `os.Stat` answers
`ENOTDIR`, which is not a not-exist error, and the `Path` of the result is
that path, not the empty string.  With the two files of `2^62` bytes as temp
paths, `cleanPath` returns `2^62` bytes for each and `SpaceFreed` is
`-2^63`, not their sum. -/
theorem CleanupTool_counts_missing_path_and_wraps :
    find sampleFS (loc "/home/u/.claude/settings.json/cache") = none ∧
    sampleEnv.stat sampleFS "/home/u/.claude/settings.json/cache".toList =
      some Errno.ENOTDIR ∧
    (cleanup.CleanupTool config.defaultConfig sampleEnv "claude".toList nestedTool
      sampleFS).2.Path = "/home/u/.claude/settings.json/cache".toList ∧
    (toolRuns config.defaultConfig sampleEnv hugeTool hugeFS).map (fun x => x.freed) =
      [4611686018427387904, 4611686018427387904] ∧
    (cleanup.CleanupTool config.defaultConfig sampleEnv "huge".toList hugeTool
      hugeFS).2.SpaceFreed = -9223372036854775808 := by
  decide

/-- C12, amended: a temp path counts when `os.Stat` does not report that it
does not exist.  The `FilesDeleted` and, in `int64` arithmetic with
wrap-around, the `SpaceFreed` of the result of `CleanupTool` are the sums,
over the temp paths of the tool that count, of the count and the byte total
that `cleanPath` returns for that path with the temp-files threshold, each
path taken in the state left by the paths before it; the byte total is the
plain sum whenever that is an `int64` value; a temp path that `os.Stat`
reports as not existing contributes nothing; and the `Path` of the result is
the last temp path in list order that counts, the empty string when none
does, in which case both tallies are zero. -/
theorem CleanupTool_sums (cfg : config.Config) (env : Env) (key : Str) (tool : config.Tool)
    (fs : FS) :
    (cleanup.CleanupTool cfg env key tool fs).2.FilesDeleted =
      (((toolRuns cfg env tool fs).filter (fun x => x.counted)).map (fun x => x.deleted)).sum ∧
    (cleanup.CleanupTool cfg env key tool fs).2.SpaceFreed =
      wrap64 (((toolRuns cfg env tool fs).filter (fun x => x.counted)).map
        (fun x => x.freed)).sum ∧
    (-9223372036854775808 ≤
        (((toolRuns cfg env tool fs).filter (fun x => x.counted)).map (fun x => x.freed)).sum ∧
      (((toolRuns cfg env tool fs).filter (fun x => x.counted)).map (fun x => x.freed)).sum <
        9223372036854775808 →
      (cleanup.CleanupTool cfg env key tool fs).2.SpaceFreed =
        (((toolRuns cfg env tool fs).filter (fun x => x.counted)).map (fun x => x.freed)).sum) ∧
    (cleanup.CleanupTool cfg env key tool fs).2.Path = lastCounted (toolRuns cfg env tool fs) ∧
    ((∀ run, run ∈ toolRuns cfg env tool fs → run.counted = false) →
      (cleanup.CleanupTool cfg env key tool fs).2.Path = [] ∧
      (cleanup.CleanupTool cfg env key tool fs).2.FilesDeleted = 0 ∧
      (cleanup.CleanupTool cfg env key tool fs).2.SpaceFreed = 0) := by
  have h0 : wrap64 (0 : Int) = 0 := by unfold wrap64; omega
  obtain ⟨h1, h2, h3⟩ := cleanupTool_fold_sums cfg env
    (cleanup.expandPath env tool.Path env.home) tool.TempPaths
    (fs, { Tool := tool.Name, Duration := 0 }) h0
  have hpath : (cleanup.CleanupTool cfg env key tool fs).2.Path =
      lastCounted (toolRuns cfg env tool fs) := by
    unfold cleanup.CleanupTool toolRuns
    rw [h3]
    split
    · rename_i hemp
      exact (lastCounted_none _ hemp).symm
    · rfl
  have hfreed : (cleanup.CleanupTool cfg env key tool fs).2.SpaceFreed =
      wrap64 (((toolRuns cfg env tool fs).filter (fun x => x.counted)).map
        (fun x => x.freed)).sum := by
    unfold cleanup.CleanupTool toolRuns
    rw [h2]
    simp
  have hdel : (cleanup.CleanupTool cfg env key tool fs).2.FilesDeleted =
      (((toolRuns cfg env tool fs).filter (fun x => x.counted)).map
        (fun x => x.deleted)).sum := by
    unfold cleanup.CleanupTool toolRuns
    rw [h1]
    simp
  refine ⟨hdel, hfreed, ?_, hpath, ?_⟩
  · rintro ⟨hlo, hhi⟩
    rw [hfreed, wrap64_of_range hlo hhi]
  · intro hall
    have hnil : (toolRuns cfg env tool fs).filter (fun x => x.counted) = [] := by
      apply List.filter_eq_nil_iff.2
      intro run hrun
      simp [hall run hrun]
    refine ⟨?_, ?_, ?_⟩
    · rw [hpath]
      apply lastCounted_none
      rw [hnil]; rfl
    · rw [hdel, hnil]; rfl
    · rw [hfreed, hnil]; exact h0

/-! ## The unit of `FormatBytes` -/

theorem formatLoop_spec :
    ∀ (fuel : Nat) (n : Int) (k : Nat), 1 ≤ n → n.toNat ≤ fuel →
      (1024 : Int) ^ (k + 1) * n < 9223372036854775808 →
      ∃ j : Nat, models.formatLoop fuel n ((1024 : Int) ^ (k + 1)) (k : Int) =
          ((1024 : Int) ^ (k + j + 1), ((k + j : Nat) : Int)) ∧
        (1024 : Int) ^ j ≤ n ∧ n < (1024 : Int) ^ (j + 1) := by
  intro fuel
  induction fuel with
  | zero =>
    intro n k hn hfuel _
    have := Int.toNat_of_nonneg (show 0 ≤ n by omega)
    omega
  | succ fuel ih =>
    intro n k hn hfuel hbound
    have hD : (0 : Int) < (1024 : Int) ^ (k + 1) := by positivity
    unfold models.formatLoop
    by_cases hge : n ≥ 1024
    · rw [if_pos hge]
      have hdiv : Int.tdiv n 1024 = n / 1024 := Int.tdiv_eq_ediv (by omega) (by omega)
      rw [hdiv]
      have hn2 : 1 ≤ n / 1024 := by omega
      have htn := Int.toNat_of_nonneg (show 0 ≤ n by omega)
      have htn2 := Int.toNat_of_nonneg (show 0 ≤ n / 1024 by omega)
      have hfuel2 : (n / 1024).toNat ≤ fuel := by omega
      have hmul : (1024 : Int) ^ (k + 1) * (1024 * (n / 1024)) ≤ (1024 : Int) ^ (k + 1) * n :=
        Int.mul_le_mul_of_nonneg_left (by omega) (le_of_lt hD)
      have hpow : (1024 : Int) ^ (k + 1 + 1) = (1024 : Int) ^ (k + 1) * 1024 := pow_succ _ _
      have hbound2 : (1024 : Int) ^ (k + 1 + 1) * (n / 1024) < 9223372036854775808 := by
        rw [hpow, mul_assoc]; omega
      have hsmall : (1024 : Int) ^ (k + 1) * 1024 < 9223372036854775808 := by
        have : (1024 : Int) ^ (k + 1) * 1024 ≤ (1024 : Int) ^ (k + 1) * (1024 * (n / 1024)) := by
          have := Int.mul_le_mul_of_nonneg_left (show (1024 : Int) ≤ 1024 * (n / 1024) by omega)
            (le_of_lt hD)
          exact this
        omega
      have hwrap : wrap64 ((1024 : Int) ^ (k + 1) * 1024) = (1024 : Int) ^ (k + 1 + 1) := by
        rw [hpow]
        exact wrap64_of_range (by omega) hsmall
      rw [hwrap]
      obtain ⟨j, hj, hlo, hhi⟩ := ih (n / 1024) (k + 1) hn2 hfuel2 hbound2
      refine ⟨j + 1, ?_, ?_, ?_⟩
      · have hcast : ((k : Int) + 1) = ((k + 1 : Nat) : Int) := by push_cast; rfl
        rw [hcast, hj]
        have e1 : k + 1 + j + 1 = k + (j + 1) + 1 := by omega
        have e2 : k + 1 + j = k + (j + 1) := by omega
        rw [e1, e2]
      · have : (1024 : Int) ^ (j + 1) = (1024 : Int) ^ j * 1024 := pow_succ _ _
        rw [this]; omega
      · have h1 : (1024 : Int) ^ (j + 1) = (1024 : Int) ^ j * 1024 := pow_succ _ _
        have h2 : (1024 : Int) ^ (j + 1 + 1) = (1024 : Int) ^ (j + 1) * 1024 := pow_succ _ _
        rw [h2]; omega
    · rw [if_neg hge]
      exact ⟨0, by simp, by simpa using hn, by simpa using (show n < 1024 by omega)⟩

theorem formatUnit_spec (bytes : Int) (hge : 1024 ≤ bytes) (hhi : bytes < 9223372036854775808) :
    ∃ e : Nat, e ≤ 5 ∧ models.formatUnit bytes = ((1024 : Int) ^ (e + 1), (e : Int)) ∧
      (1024 : Int) ^ (e + 1) ≤ bytes ∧ bytes < (1024 : Int) ^ (e + 2) ∧
      (1024 : Int) ^ (e + 1) < 9223372036854775808 := by
  have hdiv : Int.tdiv bytes 1024 = bytes / 1024 := Int.tdiv_eq_ediv (by omega) (by omega)
  have hb : (1024 : Int) ^ (0 + 1) * (bytes / 1024) < 9223372036854775808 := by
    simp only [zero_add, pow_one]; omega
  obtain ⟨j, hj, hlo, hup⟩ := formatLoop_spec (bytes / 1024).toNat (bytes / 1024) 0
    (by omega) (le_refl _) hb
  have h1 : (1024 : Int) ^ (j + 1) = (1024 : Int) ^ j * 1024 := pow_succ _ _
  have h2 : (1024 : Int) ^ (j + 2) = (1024 : Int) ^ (j + 1) * 1024 := pow_succ _ _
  have hle : (1024 : Int) ^ (j + 1) ≤ bytes := by rw [h1]; omega
  have hj5 : j ≤ 5 := by
    by_contra hcon
    have h7 : (1024 : Int) ^ 7 ≤ (1024 : Int) ^ (j + 1) :=
      pow_le_pow_right₀ (by norm_num) (by omega)
    have : (1024 : Int) ^ 7 = 1180591620717411303424 := by norm_num
    omega
  refine ⟨j, hj5, ?_, hle, ?_, by omega⟩
  · unfold models.formatUnit
    rw [hdiv]
    simpa using hj
  · rw [h2, h1]; omega

/-- C13: for every byte count below `2^63`, so for every `int64`, `FormatBytes`
and the identical `utils.FormatSize` return the decimal count followed by
` B` when it is below 1024; from 1024 on, the loop ends with a unit index `e`
with `0 ≤ e ≤ 5`, inside the six-character table `KMGTPE`, and with the divisor
exactly `1024^(e+1)`, which is below `2^63`, and `1024^(e+1) ≤ bytes <
1024^(e+2)`; the text is the quotient rendered by `%.1f`, a blank, the unit
character and `B`. -/
theorem FormatBytes_unit_in_table (fmtF : Int → Int → Str) (bytes : Int)
    (hhi : bytes < 9223372036854775808) :
    (bytes < 1024 →
      models.FormatBytes fmtF bytes = some (fmtInt bytes ++ " B".toList) ∧
      utils.FormatSize fmtF bytes = some (fmtInt bytes ++ " B".toList)) ∧
    (1024 ≤ bytes →
      ∃ e : Nat, e ≤ 5 ∧ models.formatUnit bytes = ((1024 : Int) ^ (e + 1), (e : Int)) ∧
        (1024 : Int) ^ (e + 1) ≤ bytes ∧ bytes < (1024 : Int) ^ (e + 2) ∧
        (1024 : Int) ^ (e + 1) < 9223372036854775808 ∧
        ∃ c, "KMGTPE".toList.get? e = some c ∧
          models.FormatBytes fmtF bytes =
            some (fmtF bytes ((1024 : Int) ^ (e + 1)) ++ [' ', c, 'B']) ∧
          utils.FormatSize fmtF bytes =
            some (fmtF bytes ((1024 : Int) ^ (e + 1)) ++ [' ', c, 'B'])) := by
  constructor
  · intro hlt
    simp [models.FormatBytes, utils.FormatSize, hlt]
  · intro hge
    obtain ⟨e, he, hu, hle, hlt, hov⟩ := formatUnit_spec bytes hge hhi
    refine ⟨e, he, hu, hle, hlt, hov, ?_⟩
    have hnot : ¬ bytes < 1024 := by omega
    have hc : ∃ c, "KMGTPE".toList.get? e = some c := by
      interval_cases e <;> exact ⟨_, rfl⟩
    obtain ⟨c, hc⟩ := hc
    have hc2 : ['K', 'M', 'G', 'T', 'P', 'E'][e]? = some c := by simpa using hc
    refine ⟨c, hc, ?_, ?_⟩
    · simp [models.FormatBytes, hnot, hu, hc2]
    · simp [utils.FormatSize, hnot, hu, hc2]

/-- C13, at 2048 bytes: the text ends in a unit character of the table. -/
theorem FormatBytes_unit_in_table_witness :
    (2048 : Int) < 9223372036854775808 ∧
    ∃ c, models.FormatBytes (fun _ _ => []) 2048 = some [' ', c, 'B'] := by
  refine ⟨by decide, ?_⟩
  obtain ⟨_, _, _, _, _, _, c, _, hF, _⟩ :=
    (FormatBytes_unit_in_table (fun _ _ => []) 2048 (by decide)).2 (by decide)
  exact ⟨c, by simpa using hF⟩

end AiManager
